import Mathlib

/-! Formal model of the ballot-encryption and verifiable-tally engine of the
E-Voting repository: the `Ciphertext` and `Encryption` classes of
`app/encryption.py`, the tally action `end_election` of
`app/actions/elections_actions.py`, the results verifier
`VerifyResultsView._verify_results` of `app/views/vote.py`, and the ballot
encoder `Vote._encrypt_ballot` of `app/models/vote.py`.

Python unbounded integers are modelled as `Int`; fallible Python code returns
`Except PyErr`; parsed JSON data is modelled by the inductive `J`.  The
`lightphe` Paillier cryptosystem that `app/encryption.py` wraps is an external
dependency whose code is not part of the repository; its operations are
modelled from the spec (standard Paillier: public key `(g, n)` with
`g = n + 1` as produced by key generation, private exponent `phi`, plaintext
modulus `n`, ciphertext modulus `n²`).  All moduli reached by the modelled
code paths are positive, where Lean's `Int.emod` agrees with Python's `%`. -/

/-- Python exception classes that the modelled code can raise.  The verifier
catches `jsonDecodeError` (a subclass of `ValueError` in Python), `keyError`,
`indexError` and `valueError`; `end_election` catches every exception. -/
inductive PyErr where
  | typeError
  | valueError
  | keyError
  | indexError
  | jsonDecodeError
  | zeroDivisionError
  deriving DecidableEq, Repr

/-- Model of a parsed Python/JSON value.  A string carries both its raw
characters and, when the string is itself valid JSON, the value it parses to
(`none` when `json.loads` on it would fail); this lets the model follow the
code's habit of JSON-encoding values inside JSON strings. -/
inductive J where
  | null
  | jbool (b : Bool)
  | jint (i : Int)
  | jstr (s : String) (parsed : Option J)
  | jlist (xs : List J)
  | jobj (fields : List (String × J))
  deriving Repr

namespace J

/-- Python truthiness of a value (`bool(v)`). -/
def truthy : J → Bool
  | null => false
  | jbool b => b
  | jint i => i != 0
  | jstr s _ => s != ""
  | jlist xs => !xs.isEmpty
  | jobj fs => !fs.isEmpty

/-- Python `json.loads` applied to a value: only strings can be parsed
(anything else raises `TypeError`); a string that is not valid JSON raises
`json.JSONDecodeError`. -/
def loads : J → Except PyErr J
  | jstr _ (some v) => .ok v
  | jstr _ none => .error .jsonDecodeError
  | _ => .error .typeError

/-- Python subscript `v[k]` with a string key: a `dict` looks the key up
(`KeyError` when absent); subscripting any other value with a string key
raises `TypeError`. -/
def getStr : J → String → Except PyErr J
  | jobj fs, k =>
    match fs.lookup k with
    | some v => .ok v
    | none => .error .keyError
  | _, _ => .error .typeError

/-- The one-character string `s[i]` produced by indexing or iterating a
Python string, with its JSON parse (a single digit parses as that integer). -/
def charStr (c : Char) : J :=
  jstr (String.singleton c) (if c.isDigit then some (jint ((c.toNat : Int) - 48)) else none)

/-- Python subscript `v[i]` with a non-negative index, as used by the
`for i in range(len(v))` loops: lists index positionally (`IndexError` when
out of range), strings yield a one-character substring, everything else
raises `TypeError`. -/
def getIdx : J → Nat → Except PyErr J
  | jlist xs, i =>
    match xs.get? i with
    | some v => .ok v
    | none => .error .indexError
  | jstr s _, i =>
    match s.toList.get? i with
    | some c => .ok (charStr c)
    | none => .error .indexError
  | _, _ => .error .typeError

/-- Python `len(v)`: strings, lists and dicts have a length; integers,
booleans and `None` raise `TypeError`. -/
def pyLen : J → Except PyErr Nat
  | jstr s _ => .ok s.length
  | jlist xs => .ok xs.length
  | jobj fs => .ok fs.length
  | _ => .error .typeError

/-- Python `int(v)`: integers pass through, booleans coerce, a string parses
exactly when it denotes an integer (modelled through the string's JSON parse;
`ValueError` otherwise), anything else raises `TypeError`. -/
def toInt : J → Except PyErr Int
  | jint i => .ok i
  | jbool b => .ok (if b then 1 else 0)
  | jstr _ (some (jint i)) => .ok i
  | jstr _ _ => .error .valueError
  | _ => .error .typeError

/-- Python unary minus `-v`, as used by the `[-x for x in decrypted_total]`
comprehensions: defined on integers and booleans, `TypeError` otherwise. -/
def pyNeg : J → Except PyErr Int
  | jint i => .ok (-i)
  | jbool b => .ok (if b then -1 else 0)
  | _ => .error .typeError

/-- Use of a value directly as an integer operand of arithmetic (e.g. the raw
`zero_randomness[i]` entry passed as the `rand` argument of `encrypt`):
integers and booleans work, anything else raises `TypeError`. -/
def asArith : J → Except PyErr Int
  | jint i => .ok i
  | jbool b => .ok (if b then 1 else 0)
  | _ => .error .typeError

/-- Python iteration over a value, as the list of iterated values: lists
iterate over elements, strings over one-character strings, dicts over their
keys; integers, booleans and `None` are not iterable (`TypeError`). -/
def iter : J → Except PyErr (List J)
  | jlist xs => .ok xs
  | jstr s _ => .ok (s.toList.map charStr)
  | jobj fs => .ok (fs.map fun kv => jstr kv.1 none)
  | _ => .error .typeError

end J

/-- The `Ciphertext` class of `app/encryption.py`: an encrypted value together
with the (optional) randomness used to produce it. -/
structure Ciphertext where
  ciphertext : Int
  randomness : Option Int
  deriving DecidableEq, Repr

namespace Ciphertext

/-- Serialized form of the optional randomness in `to_json`:
`str(self.randomness) if self.randomness else None` — note the Python
truthiness test, which maps both `None` and `0` to JSON `null`. -/
def randomnessJson : Option Int → J
  | some r => if r = 0 then J.null else J.jstr (toString r) (some (J.jint r))
  | none => J.null

/-- The `Ciphertext.to_json` method: `json.dumps` of the two-field dict, i.e.
a string whose JSON parse is that dict (the ciphertext value itself is stored
as a decimal string). -/
def to_json (c : Ciphertext) : J :=
  J.jstr
    ("\x7b\"ciphertext\": \"" ++ toString c.ciphertext ++ "\", \"randomness\": " ++
      (match c.randomness with
       | some r => if r = 0 then "null" else "\"" ++ toString r ++ "\""
       | none => "null") ++ "\x7d")
    (some (J.jobj
      [("ciphertext", J.jstr (toString c.ciphertext) (some (J.jint c.ciphertext))),
       ("randomness", randomnessJson c.randomness)]))

/-- The `Ciphertext.from_json` classmethod: `json.loads` the string, then
`int(data['ciphertext'])` and
`int(data['randomness']) if data['randomness'] else None`. -/
def from_json (jsonStr : J) : Except PyErr Ciphertext := do
  let data ← jsonStr.loads
  let ctV ← data.getStr "ciphertext"
  let ct ← ctV.toInt
  let rV ← data.getStr "randomness"
  if rV.truthy then
    let r ← rV.toInt
    return ⟨ct, some r⟩
  else
    return ⟨ct, none⟩

end Ciphertext

/-- Modular inverse as computed by Python's `pow(b, -1, m)` and sympy's
`mod_inverse`: the Bézout coefficient of `b` reduced into `[0, m)`. -/
def invMod (b m : Int) : Int := Int.gcdA b m % m

/-- Python's three-argument `pow(b, e, m)`: `ValueError` on modulus zero,
`b ^ e mod m` for `e ≥ 0`, and `(b⁻¹ mod m) ^ (-e) mod m` for negative `e`,
raising `ValueError` when `b` is not invertible modulo `m`. -/
def pyPow (b e m : Int) : Except PyErr Int :=
  if m = 0 then .error .valueError
  else if 0 ≤ e then .ok (b ^ e.toNat % m)
  else if Int.gcd b m = 1 then .ok (invMod b m ^ (-e).toNat % m)
  else .error .valueError

/-- The `Encryption` class of `app/encryption.py`, holding the wrapped
Paillier key material: public key `(g, n)` and, when constructed with a
private key, the private exponent `phi`.  The Paillier cryptosystem itself
(the `lightphe` dependency) is modelled from the spec. -/
structure Encryption where
  g : Int
  n : Int
  phi : Option Int
  deriving DecidableEq, Repr

namespace Encryption

/-- Modelled from the spec: the Paillier plaintext modulus is `n` ("plaintext
must be representable modulo the scheme's plaintext space"). -/
def plaintext_modulo (e : Encryption) : Int := e.n

/-- Modelled from the spec: the Paillier ciphertext group is "conceptually
modulo `n²`". -/
def ciphertext_modulo (e : Encryption) : Int := e.n * e.n

/-- Modelled from the spec: Paillier encryption `g^m · r^n mod n²`; a supplied
randomness is used "verbatim", and a negative plaintext exponent goes through
Python's modular-inverse `pow`. -/
def rawEncrypt (e : Encryption) (m r : Int) : Except PyErr Int := do
  let a ← pyPow e.g m (e.n * e.n)
  let b ← pyPow r e.n (e.n * e.n)
  return a * b % (e.n * e.n)

/-- The `Encryption.encrypt` method with explicit randomness `rand` (where
the code omits `rand`, the caller of the model supplies the fresh random
value, drawn coprime to the modulus per the spec). -/
def encrypt (e : Encryption) (m r : Int) : Except PyErr Ciphertext := do
  let ct ← rawEncrypt e m r
  return ⟨ct, some r⟩

/-- The `Encryption.add` method: homomorphic addition `(c1 · c2) mod n²`
(modelled from the spec for the underlying `paillier.add`), combining the
randomness values only when **both** are truthy in Python (`None` and `0`
both fail the `if ct1.randomness and ct2.randomness` check), with the product
reduced modulo the **ciphertext** modulus `n²`. -/
def add (e : Encryption) (ct1 ct2 : Ciphertext) : Except PyErr Ciphertext := do
  let sum ←
    if e.n * e.n = 0 then Except.error PyErr.zeroDivisionError
    else Except.ok (ct1.ciphertext * ct2.ciphertext % (e.n * e.n))
  let comb : Option Int :=
    match ct1.randomness, ct2.randomness with
    | some r1, some r2 =>
      if r1 ≠ 0 ∧ r2 ≠ 0 then some (r1 * r2 % (e.n * e.n)) else none
    | _, _ => none
  return ⟨sum, comb⟩

/-- The `Encryption.decrypt` method; the underlying `paillier.decrypt` is
modelled from the spec as standard Paillier decryption
`L(c^phi mod n²) · phi⁻¹ mod n` with `L(x) = (x - 1) // n` (floor division);
it "requires the private exponent" (`KeyError` on the missing dict entry when
the object was built without a private key). -/
def decrypt (e : Encryption) (ct : Ciphertext) : Except PyErr Int := do
  match e.phi with
  | none => .error .keyError
  | some phi => do
    let mu ← pyPow phi (-1) e.n
    let x ← pyPow ct.ciphertext phi (e.n * e.n)
    return (x - 1).fdiv e.n * mu % e.n

/-- The `Encryption.extract_randomness_from_zero_vector` method: computes
`M = n⁻¹ mod phi` (sympy `mod_inverse`, which raises `ValueError` unless
`phi > 1` and the inverse exists) and returns `r = c^M mod n`.  Reading the
private key raises `KeyError` when it is absent. -/
def extract_randomness_from_zero_vector (e : Encryption) (ct : Ciphertext) :
    Except PyErr Int := do
  match e.phi with
  | none => .error .keyError
  | some phi =>
    if phi ≤ 1 ∨ Int.gcd e.n phi ≠ 1 then .error .valueError
    else pyPow ct.ciphertext (invMod e.n phi) e.n

/-- Model of the composite `f"{pk['g']},{pk['n']}"` / `split(',')` /
`map(int, ...)` round trip the code uses to rebuild a key integer from a
parsed JSON value: a parsed integer (or a string denoting one) survives;
every other value makes `int()` (or the two-value unpacking) raise
`ValueError`. -/
def keyComponent : J → Except PyErr Int
  | J.jint i => .ok i
  | J.jstr _ (some (J.jint i)) => .ok i
  | _ => .error .valueError

/-- The `Encryption(public_key=f"{g},{n}")` construction used by the verifier
and the ballot encoder (public key only). -/
def mkPublic (gv nv : J) : Except PyErr Encryption := do
  let g ← keyComponent gv
  let n ← keyComponent nv
  return ⟨g, n, none⟩

/-- The `Encryption(public_key=f"{g},{n}", private_key=f"{phi}")`
construction used by `end_election`. -/
def mkWithPrivate (gv nv phiv : J) : Except PyErr Encryption := do
  let g ← keyComponent gv
  let n ← keyComponent nv
  let phi ← keyComponent phiv
  return ⟨g, n, some phi⟩

end Encryption

example : (Ciphertext.from_json (Ciphertext.to_json ⟨7, some 0⟩)) = .ok ⟨7, none⟩ := rfl

example : (Ciphertext.from_json (Ciphertext.to_json ⟨7, some 3⟩)) = .ok ⟨7, some 3⟩ := rfl

/-- The persisted fields of the Django `Election` model that the tally and
verification code reads and writes.  Each serialized text field is modelled
by its JSON parse result — `none` when the stored text (after the code's
quote-cleaning, where applied) is not valid JSON, which includes the empty
`default=""` of a never-written field.  `votes` holds the parse results of
the related `Vote.ballot` fields, in query order.  A record is the persisted
database row: the tally action updates it only at its single
`election.save()` call. -/
structure ElectionRec where
  public_key : Option J
  private_key : Option J
  encrypted_positive_total : Option J
  encrypted_negative_total : Option J
  encrypted_zero_sum : Option J
  zero_randomness : Option J
  decrypted_total : Option J
  active : Bool
  votes : List (Option J)

/-- Python `json.loads` applied to a stored text field (always a string, so
the only failure is `json.JSONDecodeError`). -/
def loadField : Option J → Except PyErr J
  | some v => .ok v
  | none => .error .jsonDecodeError

/-- The element sequence `[v[j] for j in range(len(v))]` traversed by the
code's index loops: positional elements for a list, one-character strings for
a string, `KeyError` at the first iteration for a non-empty dict (`v[0]` with
an integer key), `TypeError` from `len` otherwise. -/
def rangeElems : J → Except PyErr (List J)
  | J.jlist xs => .ok xs
  | J.jstr s _ => .ok (s.toList.map J.charStr)
  | J.jobj fs => if fs.isEmpty then .ok [] else .error .keyError
  | _ => .error .typeError

/-- The `json.dumps({'ciphertext': ballot[j], 'randomness': None})` /
`Ciphertext.from_json` round trip of tally step 1, with the dumps-then-loads
identity collapsed: the post-parse body of `from_json` applied to the
two-field dict. -/
def entryToCiphertext (v : J) : Except PyErr Ciphertext := do
  let ct ← v.toInt
  return ⟨ct, none⟩

/-- One iteration of tally step 1 for a ballot after the first:
`encrypted_positive_total[j] = add(encrypted_positive_total[j], ct_j)` for
`j` in `range(len(ballot))`, where `ct_j` is built from `ballot[j]` before
the `encrypted_positive_total[j]` lookup can raise `IndexError`. -/
def addBallotEntries (enc : Encryption) :
    List Ciphertext → List J → Except PyErr (List Ciphertext)
  | ept, [] => .ok ept
  | c :: rest, v :: vs => do
    let ct ← entryToCiphertext v
    let c' ← enc.add c ct
    let rest' ← addBallotEntries enc rest vs
    return c' :: rest'
  | [], v :: _ => do
    let _ ← entryToCiphertext v
    .error .indexError

/-- Tally step 1 over the ballots after the first: parse each stored ballot
and fold its entries into the running `encrypted_positive_total`. -/
def tallyVotes (enc : Encryption) :
    List Ciphertext → List (Option J) → Except PyErr (List Ciphertext)
  | ept, [] => .ok ept
  | ept, b :: rest => do
    let ballot ← loadField b
    let elems ← rangeElems ballot
    let ept' ← addBallotEntries enc ept elems
    tallyVotes enc ept' rest

/-- Tally step 3: `encrypted_zero_sum[i] = add(encrypted_positive_total[i],
encrypted_negative_total[i])` for `i` in `range(len(encrypted_positive_total))`. -/
def zipAdd (enc : Encryption) :
    List Ciphertext → List Ciphertext → Except PyErr (List Ciphertext)
  | [], _ => .ok []
  | c :: cs, d :: ds => do
    let z ← enc.add c d
    let rest ← zipAdd enc cs ds
    return z :: rest
  | _ :: _, [] => .error .indexError

/-- Outcome reported by `end_election` for one selected election. -/
inductive EndOutcome where
  | alreadyEnded
  | noVotes
  | ended
  | errorAborted (e : PyErr)
  deriving DecidableEq, Repr

/-- The body of the `try` block of `end_election` (steps 1–6 and the field
updates): `none` models the `continue` on an election with no votes, an
exception aborts the whole body, and on success the returned record carries
all five tally artifacts and `active = False`.  The Python code assigns the
artifact fields on the in-memory instance as it goes, but `election.save()`
at the end of the block is the single point where the database row changes,
so the persisted record is updated only when every step has succeeded. -/
def endElectionBody (e : ElectionRec) : Except PyErr (Option ElectionRec) := do
  match e.votes with
  | [] => return none
  | b0 :: rest =>
    let pk ← loadField e.public_key
    let pv ← loadField e.private_key
    let gv ← pk.getStr "g"
    let nv ← pk.getStr "n"
    let phiv ← pv.getStr "phi"
    let enc ← Encryption.mkWithPrivate gv nv phiv
    let ballot0 ← loadField b0
    let _ ← ballot0.pyLen
    let elems0 ← rangeElems ballot0
    let ept0 ← elems0.mapM entryToCiphertext
    let ept ← tallyVotes enc ept0 rest
    let decrypted ← ept.mapM enc.decrypt
    let negs := decrypted.map (fun x => -x)
    let ent ← negs.mapM (fun x => enc.encrypt x 1)
    let zs ← zipAdd enc ept ent
    let zr ← zs.mapM enc.extract_randomness_from_zero_vector
    return some { e with
      encrypted_positive_total := some (J.jlist (ept.map Ciphertext.to_json)),
      decrypted_total := some (J.jlist (decrypted.map J.jint)),
      encrypted_negative_total := some (J.jlist (ent.map Ciphertext.to_json)),
      encrypted_zero_sum := some (J.jlist (zs.map Ciphertext.to_json)),
      zero_randomness := some (J.jlist (zr.map J.jint)),
      active := false }

/-- The `end_election` admin action of `app/actions/elections_actions.py`,
restricted to one election: an inactive election is skipped, an election with
no votes is reported and left open, any exception in the `try` block is
reported and leaves the persisted row untouched, and otherwise the artifacts
are saved and the election is deactivated. -/
def end_election (election : ElectionRec) : ElectionRec × EndOutcome :=
  if election.active = false then (election, .alreadyEnded)
  else
    match endElectionBody election with
    | .ok none => (election, .noVotes)
    | .ok (some updated) => (updated, .ended)
    | .error err => (election, .errorAborted err)

/-- The `encryption.encrypt(plaintext=0, rand=zero_randomness[i])` call of the
verifier, whose `rand` argument is a raw parsed-JSON value: the first `pow`
runs before the randomness is used as an integer (a non-numeric value then
raises `TypeError` inside the second `pow`). -/
def Encryption.encryptJ (e : Encryption) (m : Int) (rv : J) :
    Except PyErr Ciphertext := do
  let a ← pyPow e.g m (e.n * e.n)
  let r ← rv.asArith
  let b ← pyPow r e.n (e.n * e.n)
  return ⟨a * b % (e.n * e.n), some r⟩

/-- The verifier's zero-sum loop: for `i` in
`range(len(encrypted_positive_total))`, parse the serialized ciphertext and
homomorphically add `encrypted_negative_total[i]` (the `from_json` runs
before the index lookup can raise `IndexError`). -/
def verifyZipAdd (enc : Encryption) :
    List J → List Ciphertext → Except PyErr (List Ciphertext)
  | [], _ => .ok []
  | v :: vs, ents => do
    let temp ← Ciphertext.from_json v
    match ents with
    | [] => .error .indexError
    | c :: cs => do
      let z ← enc.add temp c
      let rest ← verifyZipAdd enc vs cs
      return z :: rest

/-- The verifier's final comparison loop: `False` at the first index where
the recomputed zero sum and the re-encrypted zero differ (exact integer
inequality of ciphertext values), `IndexError` when the recalculated list is
shorter, `True` when every index matches. -/
def compareLoop : List Ciphertext → List Ciphertext → Except PyErr Bool
  | [], _ => .ok true
  | z :: zs, r :: rs =>
    if z.ciphertext ≠ r.ciphertext then .ok false else compareLoop zs rs
  | _ :: _, [] => .error .indexError

/-- The body of the `try` block of `VerifyResultsView._verify_results`.  An
election whose `public_key` field is empty returns `None` directly; a
non-empty unparseable key raises `JSONDecodeError`, which the surrounding
handler also turns into `None`, so the model collapses both into the
`none`-field early return. -/
def verifyBody (e : ElectionRec) : Except PyErr (Option Bool) := do
  match e.public_key with
  | none => return none
  | some pk =>
    let gv ← pk.getStr "g"
    let nv ← pk.getStr "n"
    let enc ← Encryption.mkPublic gv nv
    let dt ← loadField e.decrypted_total
    let dtElems ← dt.iter
    let negs ← dtElems.mapM J.pyNeg
    let ent ← negs.mapM (fun x => enc.encrypt x 1)
    let ept ← loadField e.encrypted_positive_total
    let eptElems ← rangeElems ept
    let zs ← verifyZipAdd enc eptElems ent
    let zr ← loadField e.zero_randomness
    let zrElems ← rangeElems zr
    let recalc ← zrElems.mapM (fun v => enc.encryptJ 0 v)
    let b ← compareLoop zs recalc
    return some b

/-- The exception classes caught by `_verify_results`:
`(json.JSONDecodeError, KeyError, IndexError, ValueError)`. -/
def caughtByVerifier : PyErr → Bool
  | .jsonDecodeError => true
  | .keyError => true
  | .indexError => true
  | .valueError => true
  | _ => false

/-- The `VerifyResultsView._verify_results` method of `app/views/vote.py`:
the `try` body, with the caught exception classes degraded to `None`
(Indeterminate) and every other exception propagating to the caller. -/
def _verify_results (election : ElectionRec) : Except PyErr (Option Bool) :=
  match verifyBody election with
  | .ok v => .ok v
  | .error err => if caughtByVerifier err then .ok none else .error err

/-- The `Vote._encrypt_ballot` method of `app/models/vote.py`: the one-hot
vector over the election's ordered candidate ids (`1` at the chosen
candidate, `0` elsewhere), each entry encrypted under the election's public
key with an independently drawn fresh randomness (supplied here as the list
`rands`, one value per position); the stored `ballot` field is the list of
bare ciphertext values. -/
def _encrypt_ballot (enc : Encryption) (candidate_ids : List Int)
    (chosen : Int) (rands : List Int) : Except PyErr (List Int) :=
  (candidate_ids.zip rands).mapM fun xr =>
    enc.rawEncrypt (if xr.1 = chosen then 1 else 0) xr.2

/-! Number-theoretic toolkit for the Paillier correctness arguments:
Bézout facts about `invMod`, the binomial congruence `(1+N)^k ≡ 1+kN mod N²`,
lifting a congruence mod `N` to `N`-th powers mod `N²`, Euler's theorem over
`Int`, and the totient of `(pq)²`. -/

theorem invMod_nonneg {b m : Int} (hm : 0 < m) : 0 ≤ invMod b m :=
  Int.emod_nonneg _ (ne_of_gt hm)

theorem invMod_lt {b m : Int} (hm : 0 < m) : invMod b m < m :=
  Int.emod_lt_of_pos _ hm

theorem invMod_mul_modEq {b m : Int} (h : Int.gcd b m = 1) :
    b * invMod b m ≡ 1 [ZMOD m] := by
  have hab := Int.gcd_eq_gcd_ab b m
  rw [h] at hab
  push_cast at hab
  calc b * invMod b m ≡ b * Int.gcdA b m [ZMOD m] :=
        (Int.mod_modEq _ _).mul_left b
    _ = 1 + m * (-Int.gcdB b m) := by linear_combination -hab
    _ ≡ 1 [ZMOD m] := Int.modEq_add_fac_self

theorem one_add_mul_pow_modEq (N : Int) (k : Nat) :
    (1 + N) ^ k ≡ 1 + (k : Int) * N [ZMOD N * N] := by
  induction k with
  | zero => simp
  | succ k ih =>
    calc (1 + N) ^ (k + 1) = (1 + N) ^ k * (1 + N) := by ring
      _ ≡ (1 + (k : Int) * N) * (1 + N) [ZMOD N * N] := ih.mul_right _
      _ ≡ 1 + ((k : Nat) + 1 : Int) * N [ZMOD N * N] := by
          rw [Int.modEq_iff_dvd]
          exact ⟨-(k : Int), by ring⟩
      _ = 1 + ((k + 1 : Nat) : Int) * N := by push_cast; ring

theorem coeff_reduce_modEq (t N : Int) :
    1 + t * N ≡ 1 + t % N * N [ZMOD N * N] := by
  rw [Int.modEq_iff_dvd]
  exact ⟨-(t / N), by rw [Int.emod_def]; ring⟩

theorem pow_add_mul_modEq (a d N c : Int) (hd : d = N * c) :
    ∀ k : Nat, (a + d) ^ k ≡ a ^ k + (k : Int) * a ^ (k - 1) * d [ZMOD N * N]
  | 0 => by simp
  | 1 => by
    have h1 : (a + d) ^ 1 = a ^ 1 + ((1 : Nat) : Int) * a ^ (1 - 1) * d := by
      push_cast; ring
    rw [h1]
  | (k + 2) => by
    have ih := pow_add_mul_modEq a d N c hd (k + 1)
    calc (a + d) ^ (k + 2) = (a + d) ^ (k + 1) * (a + d) := by ring
      _ ≡ (a ^ (k + 1) + ((k + 1 : Nat) : Int) * a ^ (k + 1 - 1) * d) * (a + d)
          [ZMOD N * N] := ih.mul_right _
      _ ≡ a ^ (k + 2) + ((k + 2 : Nat) : Int) * a ^ (k + 2 - 1) * d [ZMOD N * N] := by
          rw [Int.modEq_iff_dvd]
          refine ⟨-((k + 1 : Int) * a ^ k * c * c), ?_⟩
          have hk1 : k + 1 - 1 = k := by omega
          have hk2 : k + 2 - 1 = k + 1 := by omega
          rw [hk1, hk2, hd]
          push_cast
          ring

theorem pow_modEq_self_sq {a b N : Int} (h : a ≡ b [ZMOD N]) (M : Nat)
    (hM : (M : Int) = N) : a ^ M ≡ b ^ M [ZMOD N * N] := by
  obtain ⟨c, hc⟩ : N ∣ b - a := h.dvd
  have key := pow_add_mul_modEq a (b - a) N c hc M
  have hab : a + (b - a) = b := by ring
  rw [hab] at key
  have hterm : a ^ M + (M : Int) * a ^ (M - 1) * (b - a) ≡ a ^ M [ZMOD N * N] := by
    have : (M : Int) * a ^ (M - 1) * (b - a) = N * N * (a ^ (M - 1) * c) := by
      rw [hM, hc]; ring
    calc a ^ M + (M : Int) * a ^ (M - 1) * (b - a)
        = a ^ M + (N * N) * (a ^ (M - 1) * c) := by rw [this]
      _ ≡ a ^ M [ZMOD N * N] := Int.modEq_add_fac_self
  exact (key.trans hterm).symm

theorem int_pow_totient {a : Int} {m : Nat} (hm : 0 < m)
    (ha : Int.gcd a (m : Int) = 1) : a ^ m.totient ≡ 1 [ZMOD (m : Int)] := by
  have hmz : (m : Int) ≠ 0 := by exact_mod_cast hm.ne'
  have h0 : 0 ≤ a % (m : Int) := Int.emod_nonneg a hmz
  have hb : (((a % (m : Int)).toNat : Int)) = a % (m : Int) := Int.toNat_of_nonneg h0
  have hab : a ≡ ((a % (m : Int)).toNat : Int) [ZMOD (m : Int)] := by
    rw [hb]; exact (Int.mod_modEq a m).symm
  have hco : IsCoprime a (m : Int) := Int.isCoprime_iff_gcd_eq_one.mpr ha
  have hco2 : IsCoprime (a % (m : Int)) (m : Int) := by
    rw [Int.emod_def, sub_eq_add_neg, ← mul_neg]
    exact hco.add_mul_left_left _
  have hbco : Nat.Coprime (a % (m : Int)).toNat m := by
    have h1 := Int.isCoprime_iff_gcd_eq_one.mp hco2
    rw [← hb] at h1
    rwa [Int.gcd_natCast_natCast] at h1
  have he := Nat.ModEq.pow_totient hbco
  have he2 : (((a % (m : Int)).toNat : Int)) ^ m.totient ≡ 1 [ZMOD (m : Int)] := by
    have := Int.natCast_modEq_iff.mpr he
    push_cast at this
    exact this
  exact (hab.pow _).trans he2

theorem totient_prime_sq_mul {p q : Nat} (hp : p.Prime) (hq : q.Prime) (hpq : p ≠ q) :
    (p * q * (p * q)).totient = p * q * ((p - 1) * (q - 1)) := by
  have hco : Nat.Coprime p q := (Nat.coprime_primes hp hq).mpr hpq
  have h1 : p * q * (p * q) = p ^ 2 * q ^ 2 := by ring
  rw [h1, Nat.totient_mul (Nat.Coprime.pow 2 2 hco), Nat.totient_prime_pow hp (by norm_num),
    Nat.totient_prime_pow hq (by norm_num)]
  ring


/-- Closed form of the value computed by `Encryption.decrypt` (the Paillier
`L`-function route `L(c^phi mod n^2) * (phi^(-1) mod n) mod n`). -/
def decVal (n phi c : Int) : Int :=
  (c ^ phi.toNat % (n * n) - 1).fdiv n * (invMod phi n % n) % n

/-- The public generator `g = n + 1` is invertible modulo `n^2`. -/
theorem gcd_one_add_sq (n : Int) : Int.gcd (1 + n) (n * n) = 1 := by
  refine Int.isCoprime_iff_gcd_eq_one.mp ?_
  have h : IsCoprime (1 + n) n := ⟨1, -1, by ring⟩
  exact h.mul_right h

theorem isCoprime_sq {R n : Int} (h : Int.gcd R n = 1) : Int.gcd R (n * n) = 1 := by
  have h1 : IsCoprime R n := Int.isCoprime_iff_gcd_eq_one.mpr h
  exact Int.isCoprime_iff_gcd_eq_one.mp (h1.mul_right h1)

theorem decVal_honest {p q : Nat} (hp : p.Prime) (hq : q.Prime) (hpq : p ≠ q)
    (hco : Nat.Coprime ((p - 1) * (q - 1)) (p * q))
    (c R : Int) (M : Nat)
    (hc : c ≡ (1 + (p * q : Int)) ^ M * R ^ (p * q) [ZMOD (p * q : Int) * (p * q : Int)])
    (hR : Int.gcd R (p * q : Int) = 1) :
    decVal (p * q : Int) (((p - 1) * (q - 1) : Nat) : Int) c = (M : Int) % (p * q : Int) := by
  set nN : Nat := p * q with hnN
  set phiN : Nat := (p - 1) * (q - 1) with hphiN
  set n : Int := (nN : Int) with hnd
  have h4 : 4 ≤ nN := le_trans (by norm_num) (Nat.mul_le_mul hp.two_le hq.two_le)
  have hn1 : 1 < n := by
    rw [hnd]
    exact_mod_cast Nat.lt_of_lt_of_le (by norm_num) h4
  have hn0 : (0 : Int) < n := by omega
  have hnne : n ≠ 0 := by omega
  have hN2pos : (0 : Int) < n * n := by positivity
  -- Step 1: c^phi ≡ (1+n)^(M*phi) * R^(n*phi)
  have h1 : c ^ phiN ≡ (1 + n) ^ (M * phiN) * R ^ (nN * phiN) [ZMOD n * n] := by
    have := hc.pow phiN
    calc c ^ phiN ≡ ((1 + n) ^ M * R ^ nN) ^ phiN [ZMOD n * n] := this
      _ = (1 + n) ^ (M * phiN) * R ^ (nN * phiN) := by
          rw [mul_pow, ← pow_mul, ← pow_mul]
  -- Step 2: Euler mod n²
  have h2 : R ^ (nN * phiN) ≡ 1 [ZMOD n * n] := by
    have hgcd2 : Int.gcd R ((nN * nN : Nat) : Int) = 1 := by
      push_cast
      rw [← hnd]
      exact isCoprime_sq hR
    have := @int_pow_totient R (nN * nN)
      (Nat.mul_pos (by omega) (by omega)) hgcd2
    rw [hnN] at this ⊢
    rw [totient_prime_sq_mul hp hq hpq] at this
    have hcast : ((p * q * (p * q) : Nat) : Int) = ((p * q : Nat) : Int) * ((p * q : Nat) : Int) := by
      push_cast; ring
    rw [hcast] at this
    exact this
  -- Step 3: collapse
  set t : Int := ((M : Int) * (phiN : Int)) % n with ht
  have h3 : c ^ phiN ≡ 1 + t * n [ZMOD n * n] := by
    calc c ^ phiN ≡ (1 + n) ^ (M * phiN) * R ^ (nN * phiN) [ZMOD n * n] := h1
      _ ≡ (1 + n) ^ (M * phiN) * 1 [ZMOD n * n] := (Int.ModEq.refl _).mul h2
      _ = (1 + n) ^ (M * phiN) := by ring
      _ ≡ 1 + ((M * phiN : Nat) : Int) * n [ZMOD n * n] := one_add_mul_pow_modEq n _
      _ ≡ 1 + t * n [ZMOD n * n] := by
          rw [ht]
          push_cast
          exact coeff_reduce_modEq _ n
  have ht0 : 0 ≤ t := Int.emod_nonneg _ hnne
  have htlt : t < n := Int.emod_lt_of_pos _ hn0
  have hx : c ^ phiN % (n * n) = 1 + t * n := by
    have hsmall : (1 + t * n) % (n * n) = 1 + t * n :=
      Int.emod_eq_of_lt (by positivity) (by nlinarith)
    calc c ^ phiN % (n * n) = (1 + t * n) % (n * n) := h3
      _ = 1 + t * n := hsmall
  -- Step 4: evaluate decVal
  have htn : ((phiN : Int)).toNat = phiN := Int.toNat_natCast phiN
  have hfdiv : (1 + t * n - 1).fdiv n = t := by
    have : 1 + t * n - 1 = t * n := by ring
    rw [this]
    exact Int.mul_fdiv_cancel t hnne
  have hgcdphi : Int.gcd ((phiN : Int)) n = 1 := by
    rw [hnd, hphiN, hnN, Int.gcd_natCast_natCast]
    exact hco
  have h6 : t * (invMod (phiN : Int) n % n) ≡ (M : Int) [ZMOD n] := by
    calc t * (invMod (phiN : Int) n % n)
        ≡ ((M : Int) * (phiN : Int)) * invMod (phiN : Int) n [ZMOD n] :=
          (Int.mod_modEq _ _).mul (Int.mod_modEq _ _)
      _ = (M : Int) * ((phiN : Int) * invMod (phiN : Int) n) := by ring
      _ ≡ (M : Int) * 1 [ZMOD n] := (invMod_mul_modEq hgcdphi).mul_left _
      _ = (M : Int) := by ring
  show (c ^ ((phiN : Int)).toNat % (n * n) - 1).fdiv n * (invMod (phiN : Int) n % n) % n
      = (M : Int) % n
  rw [htn, hx, hfdiv]
  exact h6

theorem totient_prime_mul {p q : Nat} (hp : p.Prime) (hq : q.Prime) (hpq : p ≠ q) :
    (p * q).totient = (p - 1) * (q - 1) := by
  rw [Nat.totient_mul ((Nat.coprime_primes hp hq).mpr hpq),
    Nat.totient_prime hp, Nat.totient_prime hq]

theorem phiN_two_le {p q : Nat} (hp : p.Prime) (hq : q.Prime) (hpq : p ≠ q) :
    2 ≤ (p - 1) * (q - 1) := by
  have hp2 := hp.two_le
  have hq2 := hq.two_le
  have h3 : 3 ≤ p ∨ 3 ≤ q := by omega
  rcases h3 with h3 | h3
  · have h1 : 2 ≤ p - 1 := by omega
    have h2 : 1 ≤ q - 1 := by omega
    nlinarith
  · have h1 : 1 ≤ p - 1 := by omega
    have h2 : 2 ≤ q - 1 := by omega
    nlinarith

theorem extract_modEq {p q : Nat} (hp : p.Prime) (hq : q.Prime) (hpq : p ≠ q)
    (hco : Nat.Coprime ((p - 1) * (q - 1)) (p * q))
    (zsV R : Int)
    (hzs : zsV ≡ R ^ (p * q) [ZMOD (p * q : Int) * (p * q : Int)])
    (hR : Int.gcd R (p * q : Int) = 1) :
    zsV ^ (invMod (p * q : Int) (((p - 1) * (q - 1) : Nat) : Int)).toNat % (p * q : Int)
      ≡ R [ZMOD (p * q : Int)] := by
  set nN : Nat := p * q with hnN
  set phiN : Nat := (p - 1) * (q - 1) with hphiN
  have h4 : 4 ≤ nN := le_trans (by norm_num) (Nat.mul_le_mul hp.two_le hq.two_le)
  have hn0 : (0 : Int) < (nN : Int) := by exact_mod_cast Nat.lt_of_lt_of_le (by norm_num) h4
  have hφ2 : 2 ≤ phiN := phiN_two_le hp hq hpq
  have hφ0 : (0 : Int) < (phiN : Int) := by exact_mod_cast Nat.lt_of_lt_of_le (by norm_num) hφ2
  have hnφ : Int.gcd (nN : Int) ((phiN : Int)) = 1 := by
    rw [Int.gcd_natCast_natCast]
    exact (Nat.Coprime.symm hco)
  have hinv := invMod_mul_modEq hnφ
  set MM : Nat := (invMod (nN : Int) ((phiN : Int))).toNat with hMM
  have hMMcast : ((MM : Nat) : Int) = invMod (nN : Int) ((phiN : Int)) :=
    Int.toNat_of_nonneg (invMod_nonneg hφ0)
  have hMM1 : 1 ≤ MM := by
    by_contra hlt
    have hMM0 : MM = 0 := by omega
    have h0 : invMod (nN : Int) ((phiN : Int)) = 0 := by
      have := hMMcast
      rw [hMM0] at this
      exact_mod_cast this.symm
    rw [h0, mul_zero] at hinv
    have hdvd : ((phiN : Int)) ∣ 1 - 0 := hinv.dvd
    simp at hdvd
    have := Int.le_of_dvd (by norm_num) hdvd
    omega
  set e : Nat := nN * MM with he
  have he1 : 1 ≤ e := by
    have : 1 ≤ nN := by omega
    exact Nat.mul_le_mul this hMM1
  have hemod : 1 ≡ e [MOD phiN] := by
    have hint : ((e : Nat) : Int) ≡ 1 [ZMOD ((phiN : Nat) : Int)] := by
      have : ((e : Nat) : Int) = (nN : Int) * invMod (nN : Int) ((phiN : Int)) := by
        rw [he]; push_cast; rw [hMMcast]
      rw [this]
      exact hinv
    exact (Int.natCast_modEq_iff.mp hint).symm
  obtain ⟨k0, hk0⟩ : phiN ∣ e - 1 := (Nat.modEq_iff_dvd' he1).mp hemod
  have heq : e = 1 + phiN * k0 := by omega
  have htot : nN.totient = phiN := totient_prime_mul hp hq hpq
  have heuler : R ^ phiN ≡ 1 [ZMOD (nN : Int)] := by
    have := @int_pow_totient R nN (by omega) hR
    rwa [htot] at this
  have hzs_n : zsV ≡ R ^ nN [ZMOD (nN : Int)] :=
    hzs.of_dvd (Dvd.intro _ rfl)
  calc zsV ^ MM % (nN : Int) ≡ zsV ^ MM [ZMOD (nN : Int)] := Int.mod_modEq _ _
    _ ≡ (R ^ nN) ^ MM [ZMOD (nN : Int)] := hzs_n.pow MM
    _ = R ^ e := by rw [← pow_mul, he]
    _ = R * (R ^ phiN) ^ k0 := by rw [heq, pow_add, pow_mul, pow_one]
    _ ≡ R * 1 ^ k0 [ZMOD (nN : Int)] := (heuler.pow k0).mul_left R
    _ = R := by ring

/-! Evaluation lemmas: closed forms for each cryptographic operation on the
inputs the tally and verification paths actually feed them. -/

/-- Generic success evaluation of `List.mapM` over `Except`. -/
theorem mapM_eval {α β : Type} {f : α → Except PyErr β} {g : α → β} :
    ∀ {xs : List α}, (∀ a ∈ xs, f a = .ok (g a)) → xs.mapM f = .ok (xs.map g)
  | [], _ => rfl
  | x :: xs, h => by
    rw [List.mapM_cons, h x (by simp)]
    have ih := @mapM_eval α β f g xs (fun a ha => h a (by simp [ha]))
    rw [List.map_cons]
    simp only [bind, Except.bind, ih, pure, Except.pure]

/-- An error raised by `List.mapM` comes from one of the elements. -/
theorem mapM_error {α β : Type} {f : α → Except PyErr β} :
    ∀ {xs : List α} {err : PyErr}, xs.mapM f = .error err → ∃ a ∈ xs, f a = .error err
  | [], err, h => nomatch h
  | x :: xs, err, h => by
    rw [List.mapM_cons] at h
    cases hx : f x with
    | error e =>
      rw [hx] at h
      simp only [bind, Except.bind] at h
      cases h
      exact ⟨x, by simp, hx⟩
    | ok b =>
      rw [hx] at h
      simp only [bind, Except.bind] at h
      cases hrest : List.mapM f xs with
      | error e' =>
        rw [hrest] at h
        simp only [bind, Except.bind] at h
        cases h
        obtain ⟨a, ha, hfa⟩ := mapM_error hrest
        exact ⟨a, by simp [ha], hfa⟩
      | ok bs =>
        rw [hrest] at h
        simp only [bind, Except.bind, pure, Except.pure] at h
        exact nomatch h

/-- Closed form of `rawEncrypt` on a natural-number plaintext. -/
theorem rawEncrypt_natCast_eval (e : Encryption) (m : Nat) (r : Int)
    (hN2 : e.n * e.n ≠ 0) (hn : 0 ≤ e.n) :
    e.rawEncrypt (m : Int) r = .ok (e.g ^ m * r ^ e.n.toNat % (e.n * e.n)) := by
  unfold Encryption.rawEncrypt pyPow
  simp only [hN2, if_false, if_neg hN2, Int.natCast_nonneg, if_pos, if_true, hn,
    Int.toNat_natCast]
  simp only [bind, Except.bind, pure, Except.pure]
  rw [← Int.mul_emod]

/-- Closed form of `encrypt` on a natural-number plaintext. -/
theorem encrypt_natCast_eval (e : Encryption) (m : Nat) (r : Int)
    (hN2 : e.n * e.n ≠ 0) (hn : 0 ≤ e.n) :
    e.encrypt (m : Int) r = .ok ⟨e.g ^ m * r ^ e.n.toNat % (e.n * e.n), some r⟩ := by
  unfold Encryption.encrypt
  rw [rawEncrypt_natCast_eval e m r hN2 hn]
  rfl

/-- Closed form of `decrypt` under a usable private key. -/
theorem decrypt_eval (e : Encryption) (phi : Int) (hphi : e.phi = some phi)
    (hn : e.n ≠ 0) (hphi0 : 0 ≤ phi) (hco : Int.gcd phi e.n = 1) (c : Ciphertext) :
    e.decrypt c = .ok (decVal e.n phi c.ciphertext) := by
  have hN2 : e.n * e.n ≠ 0 := mul_ne_zero hn hn
  have hmu : pyPow phi (-1) e.n = .ok (invMod phi e.n % e.n) := by
    unfold pyPow
    rw [if_neg hn, if_neg (by norm_num : ¬ (0 : Int) ≤ -1), if_pos hco]
    norm_num
  have hx : pyPow c.ciphertext phi (e.n * e.n) =
      .ok (c.ciphertext ^ phi.toNat % (e.n * e.n)) := by
    unfold pyPow
    rw [if_neg hN2, if_pos hphi0]
  unfold Encryption.decrypt
  rw [hphi]
  simp only [hmu, hx, bind, Except.bind, pure, Except.pure]
  rfl

/-- Closed form of `encrypt (-d) 1` for a non-negative `d` (the
negative-total encryptions of tally step 4 and of the verifier). -/
theorem encrypt_neg_eval (e : Encryption) (d : Int) (hd : 0 ≤ d)
    (hN2 : 1 < e.n * e.n) (hg : Int.gcd e.g (e.n * e.n) = 1) (hn : 0 ≤ e.n) :
    e.encrypt (-d) 1 = .ok ⟨invMod e.g (e.n * e.n) ^ d.toNat % (e.n * e.n), some 1⟩ := by
  have hN2ne : e.n * e.n ≠ 0 := by omega
  have h1N2 : (1 : Int) % (e.n * e.n) = 1 := Int.emod_eq_of_lt (by norm_num) hN2
  unfold Encryption.encrypt Encryption.rawEncrypt pyPow
  rcases eq_or_lt_of_le hd with hd0 | hdpos
  · subst hd0
    simp only [neg_zero, if_neg hN2ne, if_pos (le_refl (0 : Int)), Int.toNat_zero,
      pow_zero, if_pos hn, Int.toNat_natCast, one_pow, h1N2]
    simp only [bind, Except.bind, pure, Except.pure]
    rw [one_mul, h1N2]
  · have hneg : ¬ (0 : Int) ≤ -d := by omega
    simp only [if_neg hN2ne, if_neg hneg, hg, if_pos, if_true, neg_neg, if_pos hn,
      one_pow, h1N2]
    simp only [bind, Except.bind, pure, Except.pure]
    rw [mul_one, Int.emod_emod_of_dvd _ dvd_rfl]

/-- Closed form of `add` when the first randomness is absent (the tally
accumulator and the verifier's zero sums). -/
theorem add_none_eval (e : Encryption) (c d : Ciphertext) (hc : c.randomness = none)
    (hN2 : e.n * e.n ≠ 0) :
    e.add c d = .ok ⟨c.ciphertext * d.ciphertext % (e.n * e.n), none⟩ := by
  unfold Encryption.add
  simp only [if_neg hN2, hc]
  simp only [bind, Except.bind, pure, Except.pure]

/-- Closed form of `extract_randomness_from_zero_vector` under a usable key. -/
theorem extract_eval (e : Encryption) (phi : Int) (hphi : e.phi = some phi)
    (hphi1 : 1 < phi) (hgcd : Int.gcd e.n phi = 1) (hn : e.n ≠ 0) (c : Ciphertext) :
    e.extract_randomness_from_zero_vector c =
      .ok (c.ciphertext ^ (invMod e.n phi).toNat % e.n) := by
  unfold Encryption.extract_randomness_from_zero_vector
  have hcond : ¬ (phi ≤ 1 ∨ Int.gcd e.n phi ≠ 1) := by
    push_neg
    exact ⟨by omega, hgcd⟩
  simp only [hphi, if_neg hcond]
  unfold pyPow
  rw [if_neg hn, if_pos (invMod_nonneg (by omega))]

/-- Tally step 1 on a parsed honest ballot: building the initial accumulator. -/
theorem entryToCiphertext_eval (c : Int) :
    entryToCiphertext (J.jint c) = .ok ⟨c, none⟩ := rfl

/-- `addBallotEntries` on integer ballots of the accumulator's length folds the
pointwise modular product. -/
theorem addBallotEntries_eval (enc : Encryption) (hN2 : enc.n * enc.n ≠ 0) :
    ∀ (ept : List Int) (bs : List Int), ept.length = bs.length →
      addBallotEntries enc (ept.map fun c => ⟨c, none⟩) (bs.map J.jint) =
        .ok ((List.zipWith (fun a c => a * c % (enc.n * enc.n)) ept bs).map
          fun c => ⟨c, none⟩)
  | [], [], _ => rfl
  | [], b :: bs, h => by simp at h
  | a :: ept, [], h => by simp at h
  | a :: ept, b :: bs, h => by
    have ih := addBallotEntries_eval enc hN2 ept bs (by simpa using h)
    simp only [List.map_cons, addBallotEntries, entryToCiphertext_eval, bind,
      Except.bind]
    rw [add_none_eval enc _ _ rfl hN2]
    simp only [bind, Except.bind, ih, pure, Except.pure, List.zipWith_cons_cons,
      List.map_cons]

/-- `tallyVotes` over honestly stored ballots of matching lengths folds the
pointwise modular products ballot by ballot. -/
theorem tallyVotes_eval (enc : Encryption) (hN2 : enc.n * enc.n ≠ 0) :
    ∀ (bss : List (List Int)) (ept : List Int),
      (∀ bs ∈ bss, bs.length = ept.length) →
      tallyVotes enc (ept.map fun c => ⟨c, none⟩)
          (bss.map fun bs => some (J.jlist (bs.map J.jint))) =
        .ok ((bss.foldl (fun acc bs =>
            List.zipWith (fun a c => a * c % (enc.n * enc.n)) acc bs) ept).map
          fun c => ⟨c, none⟩)
  | [], ept, _ => rfl
  | bs :: bss, ept, h => by
    have hlen : ept.length = bs.length := (h bs (by simp)).symm
    have hzlen : ∀ bs' ∈ bss,
        bs'.length = (List.zipWith (fun a c => a * c % (enc.n * enc.n)) ept bs).length := by
      intro bs' hbs'
      rw [List.length_zipWith, hlen, min_self]
      rw [← hlen]
      exact h bs' (by simp [hbs'])
    have ih := tallyVotes_eval enc hN2 bss
      (List.zipWith (fun a c => a * c % (enc.n * enc.n)) ept bs) hzlen
    simp only [List.map_cons, tallyVotes, loadField, bind, Except.bind, rangeElems]
    rw [addBallotEntries_eval enc hN2 ept bs hlen]
    simpa using ih

/-- `List.mapM` over a mapped list, evaluated pointwise. -/
theorem mapM_map_eval {α β γ : Type} {f : β → Except PyErr γ} {m : α → β} {g : α → γ} :
    ∀ {xs : List α}, (∀ a ∈ xs, f (m a) = .ok (g a)) →
      (xs.map m).mapM f = .ok (xs.map g)
  | [], _ => rfl
  | x :: xs, h => by
    rw [List.map_cons, List.mapM_cons, h x (by simp)]
    have ih := @mapM_map_eval α β γ f m g xs
      (fun a ha => h a (by simp [ha]))
    rw [List.map_cons]
    simp only [bind, Except.bind, ih, pure, Except.pure]

/-- Tally step 3 on the honest shapes: the positive totals carry no
randomness, the negative totals carry randomness `1`, and the zero sums are
the pointwise modular products with no combined randomness. -/
theorem zipAdd_map_eval (enc : Encryption) (hN2 : enc.n * enc.n ≠ 0)
    (h : Int → Int) :
    ∀ (xs : List Int),
      zipAdd enc (xs.map fun c => ⟨c, none⟩) (xs.map fun c => ⟨h c, some 1⟩) =
        .ok (xs.map fun c => ⟨c * h c % (enc.n * enc.n), none⟩)
  | [] => rfl
  | x :: xs => by
    have ih := zipAdd_map_eval enc hN2 h xs
    simp only [List.map_cons, zipAdd, bind, Except.bind]
    rw [add_none_eval enc _ _ rfl hN2]
    simp only [bind, Except.bind, ih, pure, Except.pure]

/-- The pointwise product of a list with a function of itself. -/
theorem zipWith_map_self {α β γ : Type} (f : α → β → γ) (g : α → β) :
    ∀ (xs : List α), List.zipWith f xs (xs.map g) = xs.map fun a => f a (g a)
  | [] => rfl
  | x :: xs => by
    simp only [List.map_cons, List.zipWith_cons_cons, zipWith_map_self f g xs]

/-- One honest election record: ordinary key fields holding the serialized
`(g, n)` / `phi` dicts (as stored by the key-generation signal, after the
tally code's quote-cleaning), no artifacts yet, the election active, and one
stored ballot row per inner list of ciphertext values. -/
def honestElection (g n phi : Int) (cts : List (List Int)) : ElectionRec :=
  { public_key := some (J.jobj [("g", J.jint g), ("n", J.jint n)]),
    private_key := some (J.jobj [("phi", J.jint phi)]),
    encrypted_positive_total := none,
    encrypted_negative_total := none,
    encrypted_zero_sum := none,
    zero_randomness := none,
    decrypted_total := none,
    active := true,
    votes := cts.map fun b => some (J.jlist (b.map J.jint)) }

/-- The encrypted positive totals produced by tally step 1: the ballot-wise
fold of pointwise modular ciphertext products. -/
def tallyE (n : Int) (c0 : List Int) (crest : List (List Int)) : List Int :=
  crest.foldl (fun acc bs => List.zipWith (fun a c => a * c % (n * n)) acc bs) c0

/-- The `encrypted_negative_total` entry for a positive-total value `c`. -/
def negE (g n phi : Int) (c : Int) : Int :=
  invMod g (n * n) ^ (decVal n phi c).toNat % (n * n)

/-- The `encrypted_zero_sum` entry for a positive-total value `c`. -/
def zsE (g n phi : Int) (c : Int) : Int := c * negE g n phi c % (n * n)

/-- The `zero_randomness` entry for a positive-total value `c`. -/
def zrE (g n phi : Int) (c : Int) : Int := zsE g n phi c ^ (invMod n phi).toNat % n

/-- Full evaluation of the tally body on an honest election: every step
succeeds and the five artifacts are persisted together with `active = False`,
taking the closed forms `tallyE` / `decVal` / `negE` / `zsE` / `zrE`. -/
theorem endElectionBody_honest (g n phi : Int) (c0 : List Int)
    (crest : List (List Int)) (hn : 1 < n) (hphi0 : 0 ≤ phi)
    (hgphi : Int.gcd phi n = 1) (hnphi : Int.gcd n phi = 1) (hphi1 : 1 < phi)
    (hg : Int.gcd g (n * n) = 1)
    (hlen : ∀ bs ∈ crest, bs.length = c0.length) :
    endElectionBody (honestElection g n phi (c0 :: crest)) = .ok (some
      { honestElection g n phi (c0 :: crest) with
        encrypted_positive_total := some (J.jlist ((tallyE n c0 crest).map
          fun c => Ciphertext.to_json ⟨c, none⟩)),
        decrypted_total := some (J.jlist ((tallyE n c0 crest).map
          fun c => J.jint (decVal n phi c))),
        encrypted_negative_total := some (J.jlist ((tallyE n c0 crest).map
          fun c => Ciphertext.to_json ⟨negE g n phi c, some 1⟩)),
        encrypted_zero_sum := some (J.jlist ((tallyE n c0 crest).map
          fun c => Ciphertext.to_json ⟨zsE g n phi c, none⟩)),
        zero_randomness := some (J.jlist ((tallyE n c0 crest).map
          fun c => J.jint (zrE g n phi c))),
        active := false }) := by
  have hn0 : n ≠ 0 := by omega
  have hN2 : n * n ≠ 0 := mul_ne_zero hn0 hn0
  have hN2' : (⟨g, n, some phi⟩ : Encryption).n * (⟨g, n, some phi⟩ : Encryption).n ≠ 0 := hN2
  have hinit : (c0.map J.jint).mapM entryToCiphertext =
      .ok (c0.map fun c => (⟨c, none⟩ : Ciphertext)) :=
    mapM_map_eval (fun c _ => rfl)
  have htally := tallyVotes_eval ⟨g, n, some phi⟩ hN2' crest c0 hlen
  have hdec : List.mapM (Encryption.decrypt ⟨g, n, some phi⟩)
      ((tallyE n c0 crest).map fun c => (⟨c, none⟩ : Ciphertext)) =
      .ok ((tallyE n c0 crest).map fun c => decVal n phi c) :=
    mapM_map_eval (fun c _ => decrypt_eval ⟨g, n, some phi⟩ phi rfl hn0 hphi0 hgphi _)
  have henc : List.mapM (fun x => Encryption.encrypt ⟨g, n, some phi⟩ x 1)
      ((tallyE n c0 crest).map fun c => -(decVal n phi c)) =
      .ok ((tallyE n c0 crest).map fun c => (⟨negE g n phi c, some 1⟩ : Ciphertext)) := by
    apply mapM_map_eval
    intro c _
    have hd0 : 0 ≤ decVal n phi c := Int.emod_nonneg _ hn0
    exact encrypt_neg_eval ⟨g, n, some phi⟩ (decVal n phi c) hd0
      (show (1 : Int) < n * n by nlinarith) hg (show (0 : Int) ≤ n by omega)
  have hzs := zipAdd_map_eval ⟨g, n, some phi⟩ hN2' (negE g n phi) (tallyE n c0 crest)
  have hext : List.mapM
      (Encryption.extract_randomness_from_zero_vector ⟨g, n, some phi⟩)
      ((tallyE n c0 crest).map fun c => (⟨zsE g n phi c, none⟩ : Ciphertext)) =
      .ok ((tallyE n c0 crest).map fun c => zrE g n phi c) :=
    mapM_map_eval (fun c _ => extract_eval ⟨g, n, some phi⟩ phi rfl hphi1 hnphi hn0 _)
  rw [show tallyE n c0 crest =
      crest.foldl (fun acc bs => List.zipWith (fun a c => a * c % (n * n)) acc bs) c0
      from rfl] at hdec henc hzs hext
  simp only [zsE, zrE] at hext
  unfold endElectionBody
  simp only [honestElection, List.map_cons, loadField, bind, Except.bind,
    show J.getStr (J.jobj [("g", J.jint g), ("n", J.jint n)]) "g" = .ok (J.jint g)
      from rfl,
    show J.getStr (J.jobj [("g", J.jint g), ("n", J.jint n)]) "n" = .ok (J.jint n)
      from rfl,
    show J.getStr (J.jobj [("phi", J.jint phi)]) "phi" = .ok (J.jint phi) from rfl,
    show Encryption.mkWithPrivate (J.jint g) (J.jint n) (J.jint phi) =
      .ok ⟨g, n, some phi⟩ from rfl,
    J.pyLen, rangeElems, hinit, htally, List.map_map, Function.comp_def, hdec, henc,
    hzs, hext, pure, Except.pure, tallyE, zsE, zrE]

/-- Serialization round trip for a randomness-free ciphertext (the shape the
tally persists for positive totals). -/
theorem from_json_to_json_none (c : Int) :
    Ciphertext.from_json (Ciphertext.to_json ⟨c, none⟩) = .ok ⟨c, none⟩ := rfl

/-- Closed form of the verifier's `encrypt(plaintext=0, rand=zero_randomness[i])`
call on a parsed integer randomness. -/
theorem encryptJ_int_eval (e : Encryption) (r : Int) (hN2 : 1 < e.n * e.n)
    (hn : 0 ≤ e.n) :
    e.encryptJ 0 (J.jint r) = .ok ⟨r ^ e.n.toNat % (e.n * e.n), some r⟩ := by
  have hN2ne : e.n * e.n ≠ 0 := by omega
  have h1N2 : (1 : Int) % (e.n * e.n) = 1 := Int.emod_eq_of_lt (by norm_num) hN2
  unfold Encryption.encryptJ pyPow J.asArith
  simp only [if_neg hN2ne, if_pos (le_refl (0 : Int)), Int.toNat_zero, pow_zero,
    if_pos hn, h1N2, bind, Except.bind, pure, Except.pure]
  rw [one_mul, Int.emod_emod_of_dvd _ dvd_rfl]

/-- The verifier's zero-sum loop on the honest shapes: each serialized
positive total parses back and is multiplied into the recomputed negative
total. -/
theorem verifyZipAdd_map_eval (enc : Encryption) (hN2 : enc.n * enc.n ≠ 0)
    (h : Int → Int) :
    ∀ (xs : List Int),
      verifyZipAdd enc (xs.map fun c => Ciphertext.to_json ⟨c, none⟩)
          (xs.map fun c => ⟨h c, some 1⟩) =
        .ok (xs.map fun c => ⟨c * h c % (enc.n * enc.n), none⟩)
  | [] => rfl
  | x :: xs => by
    have ih := verifyZipAdd_map_eval enc hN2 h xs
    simp only [List.map_cons, verifyZipAdd, from_json_to_json_none, bind, Except.bind]
    rw [add_none_eval enc _ _ rfl hN2]
    simp only [bind, Except.bind, ih, pure, Except.pure]

/-- The verifier's final loop accepts two mapped lists whose ciphertext
values agree pointwise. -/
theorem compareLoop_map_eq {h1 h2 : Int → Ciphertext} :
    ∀ {xs : List Int}, (∀ c ∈ xs, (h1 c).ciphertext = (h2 c).ciphertext) →
      compareLoop (xs.map h1) (xs.map h2) = .ok true
  | [], _ => rfl
  | x :: xs, h => by
    simp only [List.map_cons, compareLoop]
    rw [if_neg (fun hne => hne (h x (by simp)))]
    exact compareLoop_map_eq (fun c hc => h c (by simp [hc]))

/-- Full evaluation of the verifier body on honestly produced artifacts:
when every recomputed zero sum equals the re-encryption of zero under the
published randomness, the verifier reports `Verified`. -/
theorem verifyBody_honest (e : ElectionRec) (g n phi : Int) (E : List Int)
    (hpk : e.public_key = some (J.jobj [("g", J.jint g), ("n", J.jint n)]))
    (hdt : e.decrypted_total = some (J.jlist (E.map fun c => J.jint (decVal n phi c))))
    (hept : e.encrypted_positive_total =
      some (J.jlist (E.map fun c => Ciphertext.to_json ⟨c, none⟩)))
    (hzr : e.zero_randomness = some (J.jlist (E.map fun c => J.jint (zrE g n phi c))))
    (hn : 1 < n) (hg : Int.gcd g (n * n) = 1)
    (hmatch : ∀ c ∈ E, zsE g n phi c = zrE g n phi c ^ n.toNat % (n * n)) :
    verifyBody e = .ok (some true) := by
  have hn0 : n ≠ 0 := by omega
  have hN2 : n * n ≠ 0 := mul_ne_zero hn0 hn0
  have hN2' : (⟨g, n, none⟩ : Encryption).n * (⟨g, n, none⟩ : Encryption).n ≠ 0 := hN2
  have hneg : List.mapM J.pyNeg (E.map fun c => J.jint (decVal n phi c)) =
      .ok (E.map fun c => -(decVal n phi c)) :=
    mapM_map_eval (fun c _ => rfl)
  have henc : List.mapM (fun x => Encryption.encrypt ⟨g, n, none⟩ x 1)
      (E.map fun c => -(decVal n phi c)) =
      .ok (E.map fun c => (⟨negE g n phi c, some 1⟩ : Ciphertext)) := by
    apply mapM_map_eval
    intro c _
    have hd0 : 0 ≤ decVal n phi c := Int.emod_nonneg _ hn0
    exact encrypt_neg_eval ⟨g, n, none⟩ (decVal n phi c) hd0
      (show (1 : Int) < n * n by nlinarith) hg (show (0 : Int) ≤ n by omega)
  have hvz := verifyZipAdd_map_eval ⟨g, n, none⟩ hN2' (negE g n phi) E
  have hrecalc : List.mapM (fun v => Encryption.encryptJ ⟨g, n, none⟩ 0 v)
      (E.map fun c => J.jint (zrE g n phi c)) =
      .ok (E.map fun c =>
        (⟨zrE g n phi c ^ n.toNat % (n * n), some (zrE g n phi c)⟩ : Ciphertext)) := by
    apply mapM_map_eval
    intro c _
    exact encryptJ_int_eval ⟨g, n, none⟩ (zrE g n phi c)
      (show (1 : Int) < n * n by nlinarith) (show (0 : Int) ≤ n by omega)
  have hcmp : compareLoop
      (E.map fun c => (⟨c * negE g n phi c % (n * n), none⟩ : Ciphertext))
      (E.map fun c =>
        (⟨zrE g n phi c ^ n.toNat % (n * n), some (zrE g n phi c)⟩ : Ciphertext)) =
      .ok true := by
    apply compareLoop_map_eq
    intro c hc
    have := hmatch c hc
    rw [zsE] at this
    exact this
  unfold verifyBody
  simp only [hpk, hdt, hept, hzr, loadField, bind, Except.bind,
    show J.getStr (J.jobj [("g", J.jint g), ("n", J.jint n)]) "g" = .ok (J.jint g)
      from rfl,
    show J.getStr (J.jobj [("g", J.jint g), ("n", J.jint n)]) "n" = .ok (J.jint n)
      from rfl,
    show Encryption.mkPublic (J.jint g) (J.jint n) = .ok ⟨g, n, none⟩ from rfl,
    J.iter, rangeElems, hneg, henc, hvz, hrecalc, hcmp, pure, Except.pure]

/-- Closed form of an honest ballot-entry encryption `g^m * r^n mod n²`. -/
def encVal (g n : Int) (m : Nat) (r : Int) : Int := g ^ m * r ^ n.toNat % (n * n)

/-- The zero-sum entry built from an honestly encrypted positive total is
congruent to the pure randomness power `R^n`, and the published
zero-randomness entry re-encrypts zero to exactly that zero sum.  This is the
heart of claims about the verifier accepting an honest tally. -/
theorem honest_column_match {p q : Nat} (hp : p.Prime) (hq : q.Prime) (hpq : p ≠ q)
    (hco : Nat.Coprime ((p - 1) * (q - 1)) (p * q)) (c R : Int) (M : Nat)
    (hc : c ≡ (1 + (p * q : Int)) ^ M * R ^ (p * q) [ZMOD (p * q : Int) * (p * q : Int)])
    (hR : Int.gcd R (p * q : Int) = 1) (hM : M < p * q) :
    decVal (p * q : Int) (((p - 1) * (q - 1) : Nat) : Int) c = (M : Int) ∧
      zsE (1 + (p * q : Int)) (p * q : Int) (((p - 1) * (q - 1) : Nat) : Int) c =
        zrE (1 + (p * q : Int)) (p * q : Int) (((p - 1) * (q - 1) : Nat) : Int) c ^
          (p * q : Int).toNat % ((p * q : Int) * (p * q : Int)) := by
  set n : Int := (p * q : Int) with hn
  set phiI : Int := (((p - 1) * (q - 1) : Nat) : Int) with hphiI
  have h4 : 4 ≤ p * q := le_trans (by norm_num) (Nat.mul_le_mul hp.two_le hq.two_le)
  have hn1 : 1 < n := by rw [hn]; exact_mod_cast Nat.lt_of_lt_of_le (by norm_num) h4
  have hn0 : n ≠ 0 := by omega
  have hN2 : n * n ≠ 0 := mul_ne_zero hn0 hn0
  have hMn : (M : Int) < n := by rw [hn]; exact_mod_cast hM
  -- decryption gives back M exactly
  have hdec : decVal n phiI c = (M : Int) := by
    have := decVal_honest hp hq hpq hco c R M hc hR
    rw [← hn, ← hphiI] at this
    rw [this]
    exact Int.emod_eq_of_lt (by positivity) hMn
  refine ⟨hdec, ?_⟩
  -- the inverse generator power cancels the plaintext part
  have hg : Int.gcd (1 + n) (n * n) = 1 := gcd_one_add_sq n
  have hginv : (1 + n) * invMod (1 + n) (n * n) ≡ 1 [ZMOD n * n] := invMod_mul_modEq hg
  have hzs_modEq : zsE (1 + n) n phiI c ≡ R ^ (p * q) [ZMOD n * n] := by
    unfold zsE negE
    rw [hdec, Int.toNat_natCast]
    calc c * (invMod (1 + n) (n * n) ^ M % (n * n)) % (n * n)
        ≡ c * (invMod (1 + n) (n * n) ^ M % (n * n)) [ZMOD n * n] := Int.mod_modEq _ _
      _ ≡ ((1 + n) ^ M * R ^ (p * q)) * invMod (1 + n) (n * n) ^ M [ZMOD n * n] :=
          hc.mul (Int.mod_modEq _ _)
      _ = ((1 + n) * invMod (1 + n) (n * n)) ^ M * R ^ (p * q) := by
          rw [mul_pow]; ring
      _ ≡ 1 ^ M * R ^ (p * q) [ZMOD n * n] := (hginv.pow M).mul_right _
      _ = R ^ (p * q) := by ring
  -- the published randomness is congruent to R mod n
  have hzr_modEq : zrE (1 + n) n phiI c ≡ R [ZMOD n] := by
    unfold zrE
    have := extract_modEq hp hq hpq hco (zsE (1 + n) n phiI c) R hzs_modEq hR
    rw [← hn, ← hphiI] at this
    exact this
  -- both sides reduce to R^(pq) mod n²
  have hzs_red : zsE (1 + n) n phiI c % (n * n) = zsE (1 + n) n phiI c := by
    unfold zsE
    exact Int.emod_emod_of_dvd _ dvd_rfl
  have hpow : zrE (1 + n) n phiI c ^ n.toNat ≡ R ^ n.toNat [ZMOD n * n] := by
    refine pow_modEq_self_sq hzr_modEq n.toNat ?_
    exact Int.toNat_of_nonneg (by omega)
  have hton : n.toNat = p * q := by
    rw [hn]
    exact_mod_cast Int.toNat_natCast (p * q)
  calc zsE (1 + n) n phiI c = zsE (1 + n) n phiI c % (n * n) := hzs_red.symm
    _ = R ^ (p * q) % (n * n) := hzs_modEq
    _ = R ^ n.toNat % (n * n) := by rw [hton]
    _ = zrE (1 + n) n phiI c ^ n.toNat % (n * n) := (Int.ModEq.eq hpow).symm

/-- `tallyE` preserves the candidate count when every ballot has the same
length. -/
theorem tallyE_length (n : Int) :
    ∀ (crest : List (List Int)) (c0 : List Int),
      (∀ bs ∈ crest, bs.length = c0.length) →
      (tallyE n c0 crest).length = c0.length
  | [], c0, _ => rfl
  | bs :: crest, c0, h => by
    have hbs : bs.length = c0.length := h bs (by simp)
    have hlen : (List.zipWith (fun a c => a * c % (n * n)) c0 bs).length = c0.length := by
      rw [List.length_zipWith, hbs, min_self]
    have ih := tallyE_length n crest (List.zipWith (fun a c => a * c % (n * n)) c0 bs)
      (fun bs' hbs' => by rw [hlen]; exact h bs' (by simp [hbs']))
    calc (tallyE n c0 (bs :: crest)).length
        = (tallyE n (List.zipWith (fun a c => a * c % (n * n)) c0 bs) crest).length := rfl
      _ = _ := by rw [ih, hlen]

/-- Entry `j` of `tallyE` is the column-wise fold of the modular products. -/
theorem tallyE_getD (n : Int) :
    ∀ (crest : List (List Int)) (c0 : List Int),
      (∀ bs ∈ crest, bs.length = c0.length) → ∀ j, j < c0.length →
      (tallyE n c0 crest).getD j 0 =
        crest.foldl (fun a bs => a * bs.getD j 0 % (n * n)) (c0.getD j 0)
  | [], c0, _, j, _ => rfl
  | bs :: crest, c0, h, j, hj => by
    have hbs : bs.length = c0.length := h bs (by simp)
    have hlen : (List.zipWith (fun a c => a * c % (n * n)) c0 bs).length = c0.length := by
      rw [List.length_zipWith, hbs, min_self]
    have ih := tallyE_getD n crest (List.zipWith (fun a c => a * c % (n * n)) c0 bs)
      (fun bs' hbs' => by rw [hlen]; exact h bs' (by simp [hbs'])) j (by omega)
    have hz : (List.zipWith (fun a c => a * c % (n * n)) c0 bs).getD j 0 =
        c0.getD j 0 * bs.getD j 0 % (n * n) := by
      rw [List.getD_eq_getElem _ _ (show j < _ from by rw [hlen]; exact hj),
        List.getElem_zipWith, List.getD_eq_getElem _ _ hj,
        List.getD_eq_getElem _ _ (show j < bs.length from by rw [hbs]; exact hj)]
    calc (tallyE n c0 (bs :: crest)).getD j 0
        = (tallyE n (List.zipWith (fun a c => a * c % (n * n)) c0 bs) crest).getD j 0 := rfl
      _ = _ := by rw [ih, hz]; rfl

/-- Folding modular multiplication accumulates the list product mod `N²`. -/
theorem foldl_mulmod_modEq (N : Int) :
    ∀ (cs : List Int) (a b : Int), a ≡ b [ZMOD N] →
      cs.foldl (fun x c => x * c % N) a ≡ b * cs.prod [ZMOD N]
  | [], a, b, h => by simpa using h
  | c :: cs, a, b, h => by
    have hstep : a * c % N ≡ b * c [ZMOD N] :=
      (Int.mod_modEq _ _).trans (h.mul_right c)
    have ih := foldl_mulmod_modEq N cs (a * c % N) (b * c) hstep
    calc (c :: cs).foldl (fun x c => x * c % N) a
        = cs.foldl (fun x c => x * c % N) (a * c % N) := rfl
      _ ≡ b * c * cs.prod [ZMOD N] := ih
      _ = b * (c :: cs).prod := by rw [List.prod_cons]; ring

/-- A product of honest encryptions splits into the generator power of the
plaintext sum times the `n`-th power of the randomness product. -/
theorem prod_encVal_split (g : Int) (e : Nat) :
    ∀ (l : List (Nat × Int)),
      (l.map fun mr => g ^ mr.1 * mr.2 ^ e).prod =
        g ^ (l.map fun mr => mr.1).sum * ((l.map fun mr => mr.2).prod) ^ e
  | [] => by simp
  | mr :: l => by
    simp only [List.map_cons, List.prod_cons, List.sum_cons, prod_encVal_split g e l,
      pow_add, mul_pow]
    ring

/-- Congruence of list products from pointwise congruences. -/
theorem list_prod_modEq {α : Type} (N : Int) (f h : α → Int) :
    ∀ (l : List α), (∀ a ∈ l, f a ≡ h a [ZMOD N]) →
      (l.map f).prod ≡ (l.map h).prod [ZMOD N]
  | [], _ => Int.ModEq.refl 1
  | a :: l, hfh => by
    simp only [List.map_cons, List.prod_cons]
    exact (hfh a (by simp)).mul (list_prod_modEq N f h l (fun b hb => hfh b (by simp [hb])))

/-- A product of units mod `n` is a unit mod `n`. -/
theorem gcd_list_prod_one (n : Int) :
    ∀ (l : List Int), (∀ r ∈ l, Int.gcd r n = 1) → Int.gcd l.prod n = 1
  | [], _ => by simp
  | r :: l, h => by
    rw [List.prod_cons]
    have h1 : IsCoprime r n := Int.isCoprime_iff_gcd_eq_one.mpr (h r (by simp))
    have h2 : IsCoprime l.prod n := Int.isCoprime_iff_gcd_eq_one.mpr
      (gcd_list_prod_one n l (fun r' hr' => h r' (by simp [hr'])))
    exact Int.isCoprime_iff_gcd_eq_one.mp (h1.mul_left h2)

/-- Entry `j` of the homomorphic tally over honestly encrypted ballots is an
encryption of the column plaintext sum under the column randomness product. -/
theorem tallyE_entry_decomp (g n : Int) (b0 : List (Nat × Int))
    (brest : List (List (Nat × Int)))
    (hlen : ∀ b ∈ brest, b.length = b0.length) (j : Nat) (hj : j < b0.length) :
    (tallyE n (b0.map fun mr => encVal g n mr.1 mr.2)
        (brest.map fun b => b.map fun mr => encVal g n mr.1 mr.2)).getD j 0 ≡
      g ^ (((b0 :: brest).map fun b => (b.getD j (0, 1)).1).sum) *
        (((b0 :: brest).map fun b => (b.getD j (0, 1)).2).prod) ^ n.toNat
      [ZMOD n * n] := by
  have hlen' : ∀ bs ∈ brest.map fun b => b.map fun mr => encVal g n mr.1 mr.2,
      bs.length = (b0.map fun mr => encVal g n mr.1 mr.2).length := by
    intro bs hbs
    obtain ⟨b, hb, rfl⟩ := List.mem_map.mp hbs
    simp [hlen b hb]
  have hj' : j < (b0.map fun mr => encVal g n mr.1 mr.2).length := by simpa using hj
  rw [tallyE_getD n _ _ hlen' j hj', List.foldl_map]
  have hgetD : ∀ (b : List (Nat × Int)), j < b.length →
      (b.map fun mr => encVal g n mr.1 mr.2).getD j 0 =
        encVal g n (b.getD j (0, 1)).1 (b.getD j (0, 1)).2 := by
    intro b hjb
    rw [List.getD_eq_getElem _ _ (show j < _ from by simpa using hjb),
      List.getElem_map, List.getD_eq_getElem _ _ hjb]
  have hext : List.foldl
      (fun a b => a * (List.map (fun mr => encVal g n mr.1 mr.2) b).getD j 0 % (n * n))
      ((b0.map fun mr => encVal g n mr.1 mr.2).getD j 0) brest =
      List.foldl (fun a b => a * encVal g n (b.getD j (0, 1)).1 (b.getD j (0, 1)).2 % (n * n))
      ((b0.map fun mr => encVal g n mr.1 mr.2).getD j 0) brest := by
    apply List.foldl_ext
    intro a b hb
    rw [hgetD b (by rw [hlen b hb]; exact hj)]
  rw [hext, hgetD b0 hj,
    show (List.foldl
        (fun a b => a * encVal g n (b.getD j (0, 1)).1 (b.getD j (0, 1)).2 % (n * n))
        (encVal g n (b0.getD j (0, 1)).1 (b0.getD j (0, 1)).2) brest) =
      (List.foldl (fun a c => a * c % (n * n))
        (encVal g n (b0.getD j (0, 1)).1 (b0.getD j (0, 1)).2)
        (brest.map fun b => encVal g n (b.getD j (0, 1)).1 (b.getD j (0, 1)).2))
      from (List.foldl_map (fun b : List (Nat × Int) => encVal g n (b.getD j (0, 1)).1
        (b.getD j (0, 1)).2) (fun a c => a * c % (n * n)) brest
        (encVal g n (b0.getD j (0, 1)).1 (b0.getD j (0, 1)).2)).symm]
  have h1 := foldl_mulmod_modEq (n * n)
    (brest.map fun b => encVal g n (b.getD j (0, 1)).1 (b.getD j (0, 1)).2)
    (encVal g n (b0.getD j (0, 1)).1 (b0.getD j (0, 1)).2)
    (g ^ (b0.getD j (0, 1)).1 * (b0.getD j (0, 1)).2 ^ n.toNat)
    (Int.mod_modEq _ _)
  have h2 : (brest.map fun b => encVal g n (b.getD j (0, 1)).1 (b.getD j (0, 1)).2).prod ≡
      (brest.map fun b => g ^ (b.getD j (0, 1)).1 * (b.getD j (0, 1)).2 ^ n.toNat).prod
      [ZMOD n * n] :=
    list_prod_modEq (n * n) _ _ brest (fun b _ => Int.mod_modEq _ _)
  have h3 : (brest.map fun b => g ^ (b.getD j (0, 1)).1 * (b.getD j (0, 1)).2 ^ n.toNat).prod =
      g ^ ((brest.map fun b => (b.getD j (0, 1)).1).sum) *
        ((brest.map fun b => (b.getD j (0, 1)).2).prod) ^ n.toNat := by
    have := prod_encVal_split g n.toNat (brest.map fun b => b.getD j (0, 1))
    simpa [List.map_map, Function.comp_def] using this
  calc List.foldl (fun a c => a * c % (n * n))
        (encVal g n (b0.getD j (0, 1)).1 (b0.getD j (0, 1)).2)
        (brest.map fun b => encVal g n (b.getD j (0, 1)).1 (b.getD j (0, 1)).2)
      ≡ g ^ (b0.getD j (0, 1)).1 * (b0.getD j (0, 1)).2 ^ n.toNat *
          (brest.map fun b => encVal g n (b.getD j (0, 1)).1 (b.getD j (0, 1)).2).prod
        [ZMOD n * n] := h1
    _ ≡ g ^ (b0.getD j (0, 1)).1 * (b0.getD j (0, 1)).2 ^ n.toNat *
          (g ^ ((brest.map fun b => (b.getD j (0, 1)).1).sum) *
            ((brest.map fun b => (b.getD j (0, 1)).2).prod) ^ n.toNat)
        [ZMOD n * n] := by
        refine Int.ModEq.mul_left _ ?_
        rw [← h3]
        exact h2
    _ = g ^ (((b0 :: brest).map fun b => (b.getD j (0, 1)).1).sum) *
          (((b0 :: brest).map fun b => (b.getD j (0, 1)).2).prod) ^ n.toNat := by
        simp only [List.map_cons, List.sum_cons, List.prod_cons, pow_add, mul_pow]
        ring

/-- C1: for every election whose stored ballots are well-formed Paillier
encryptions under the election's key pair (distinct primes, `g = n + 1`,
usable private exponent) whose per-candidate plaintext sums stay below the
plaintext modulus, `end_election` closes the election and
`_verify_results` on the persisted artifacts — public key,
`decrypted_total`, `encrypted_positive_total`, `zero_randomness` — returns
`Verified` (`True`): every recomputed zero sum equals the re-encryption of
zero under the published randomness as exact integers. -/
theorem verifier_accepts_honest_tally {p q : Nat} (hp : p.Prime) (hq : q.Prime)
    (hpq : p ≠ q) (hco : Nat.Coprime ((p - 1) * (q - 1)) (p * q))
    (b0 : List (Nat × Int)) (brest : List (List (Nat × Int)))
    (hlen : ∀ b ∈ brest, b.length = b0.length)
    (hcop : ∀ b ∈ b0 :: brest, ∀ mr ∈ b, Int.gcd mr.2 (p * q : Int) = 1)
    (hsum : ∀ j, j < b0.length →
      (((b0 :: brest).map fun b => (b.getD j (0, 1)).1).sum) < p * q) :
    (end_election (honestElection (1 + (p * q : Int)) (p * q : Int)
        (((p - 1) * (q - 1) : Nat) : Int)
        ((b0 :: brest).map fun b => b.map fun mr =>
          encVal (1 + (p * q : Int)) (p * q : Int) mr.1 mr.2))).2 = .ended ∧
    _verify_results (end_election (honestElection (1 + (p * q : Int)) (p * q : Int)
        (((p - 1) * (q - 1) : Nat) : Int)
        ((b0 :: brest).map fun b => b.map fun mr =>
          encVal (1 + (p * q : Int)) (p * q : Int) mr.1 mr.2))).1 = .ok (some true) := by
  set n : Int := (p * q : Int) with hn
  set g : Int := 1 + n with hgdef
  set phiI : Int := (((p - 1) * (q - 1) : Nat) : Int) with hphiI
  have h4 : 4 ≤ p * q := le_trans (by norm_num) (Nat.mul_le_mul hp.two_le hq.two_le)
  have hn1 : 1 < n := by rw [hn]; exact_mod_cast Nat.lt_of_lt_of_le (by norm_num) h4
  have hn0 : n ≠ 0 := by omega
  have hphi2 : 2 ≤ (p - 1) * (q - 1) := phiN_two_le hp hq hpq
  have hphi1 : 1 < phiI := by
    rw [hphiI]
    exact_mod_cast Nat.lt_of_lt_of_le (by norm_num) hphi2
  have hphi0 : 0 ≤ phiI := by omega
  have hncast : n = ((p * q : Nat) : Int) := by rw [hn]; push_cast; ring
  have hgphi : Int.gcd phiI n = 1 := by
    rw [hphiI, hncast, Int.gcd_natCast_natCast]
    exact hco
  have hnphi : Int.gcd n phiI = 1 := by
    rw [hphiI, hncast, Int.gcd_natCast_natCast]
    exact hco.symm
  have hg : Int.gcd g (n * n) = 1 := by rw [hgdef]; exact gcd_one_add_sq n
  rw [show ((b0 :: brest).map fun b => b.map fun mr => encVal g n mr.1 mr.2) =
    (b0.map fun mr => encVal g n mr.1 mr.2) ::
      (brest.map fun b => b.map fun mr => encVal g n mr.1 mr.2) from
    List.map_cons _ _ _]
  set c0 : List Int := b0.map fun mr => encVal g n mr.1 mr.2 with hc0
  set crest : List (List Int) := brest.map fun b => b.map fun mr => encVal g n mr.1 mr.2
    with hcrest
  have hlenc : ∀ bs ∈ crest, bs.length = c0.length := by
    intro bs hbs
    rw [hcrest] at hbs
    obtain ⟨b, hb, rfl⟩ := List.mem_map.mp hbs
    simp [hc0, hlen b hb]
  have hbody := endElectionBody_honest g n phiI c0 crest hn1 hphi0 hgphi hnphi hphi1 hg
    hlenc
  have hend : end_election (honestElection g n phiI (c0 :: crest)) =
      ({ honestElection g n phiI (c0 :: crest) with
          encrypted_positive_total := some (J.jlist ((tallyE n c0 crest).map
            fun c => Ciphertext.to_json ⟨c, none⟩)),
          decrypted_total := some (J.jlist ((tallyE n c0 crest).map
            fun c => J.jint (decVal n phiI c))),
          encrypted_negative_total := some (J.jlist ((tallyE n c0 crest).map
            fun c => Ciphertext.to_json ⟨negE g n phiI c, some 1⟩)),
          encrypted_zero_sum := some (J.jlist ((tallyE n c0 crest).map
            fun c => Ciphertext.to_json ⟨zsE g n phiI c, none⟩)),
          zero_randomness := some (J.jlist ((tallyE n c0 crest).map
            fun c => J.jint (zrE g n phiI c))),
          active := false }, .ended) := by
    unfold end_election
    rw [hbody]
    rfl
  rw [hend]
  refine ⟨rfl, ?_⟩
  -- the verifier accepts
  have hEfacts : ∀ c ∈ tallyE n c0 crest,
      zsE g n phiI c = zrE g n phiI c ^ n.toNat % (n * n) := by
    intro c hc
    obtain ⟨j, hjE, hcj⟩ := List.mem_iff_getElem.mp hc
    have hjb0 : j < b0.length := by
      have h1 : (tallyE n c0 crest).length = c0.length := tallyE_length n crest c0 hlenc
      have h2 : c0.length = b0.length := by rw [hc0]; simp
      omega
    have hgd : (tallyE n c0 crest).getD j 0 = c := by
      rw [List.getD_eq_getElem _ _ hjE, hcj]
    have hdecomp := tallyE_entry_decomp g n b0 brest hlen j hjb0
    rw [← hc0, ← hcrest, hgd] at hdecomp
    have hM := hsum j hjb0
    have hRcop : Int.gcd (((b0 :: brest).map fun b => (b.getD j (0, 1)).2).prod) n = 1 := by
      apply gcd_list_prod_one
      intro r hr
      obtain ⟨b, hb, rfl⟩ := List.mem_map.mp hr
      have hjb : j < b.length := by
        rcases List.mem_cons.mp hb with rfl | hb'
        · exact hjb0
        · rw [hlen b hb']; exact hjb0
      have hmem : b.getD j (0, 1) ∈ b := by
        rw [List.getD_eq_getElem _ _ hjb]
        exact List.getElem_mem _
      exact hcop b hb _ hmem
    have hton : n.toNat = p * q := by rw [hncast]; exact_mod_cast Int.toNat_natCast (p * q)
    rw [hton, hgdef, hn] at hdecomp
    have hmatch := honest_column_match hp hq hpq hco c _ _ hdecomp
      (by rw [← hn]; exact hRcop) hM
    rw [hgdef, hn, hphiI, hton]
    exact hmatch.2
  unfold _verify_results
  rw [verifyBody_honest _ g n phiI (tallyE n c0 crest) rfl rfl rfl rfl hn1 hg hEfacts]

/-- Witness for C1: a concrete election under the key `p = 3`, `q = 5`
(`n = 15`, `g = 16`, `phi = 8`) with three candidates and three honest
one-hot ballots; the tally closes the election and the verifier accepts. -/
theorem verifier_accepts_honest_tally_witness :
    (end_election (honestElection (1 + ((3 : Nat) * (5 : Nat) : Int))
        ((3 : Nat) * (5 : Nat) : Int) ((((3 : Nat) - 1) * ((5 : Nat) - 1) : Nat) : Int)
        ((([(1, 2), (0, 7), (0, 11)] :: [[(1, 4), (0, 8), (0, 13)],
            [(0, 2), (1, 2), (0, 7)]]) : List (List (Nat × Int))).map fun b =>
          b.map fun mr => encVal (1 + ((3 : Nat) * (5 : Nat) : Int))
            ((3 : Nat) * (5 : Nat) : Int) mr.1 mr.2))).2 = .ended ∧
    _verify_results (end_election (honestElection (1 + ((3 : Nat) * (5 : Nat) : Int))
        ((3 : Nat) * (5 : Nat) : Int) ((((3 : Nat) - 1) * ((5 : Nat) - 1) : Nat) : Int)
        ((([(1, 2), (0, 7), (0, 11)] :: [[(1, 4), (0, 8), (0, 13)],
            [(0, 2), (1, 2), (0, 7)]]) : List (List (Nat × Int))).map fun b =>
          b.map fun mr => encVal (1 + ((3 : Nat) * (5 : Nat) : Int))
            ((3 : Nat) * (5 : Nat) : Int) mr.1 mr.2))).1 = .ok (some true) :=
  verifier_accepts_honest_tally (by norm_num) (by norm_num) (by norm_num) (by decide)
    [(1, 2), (0, 7), (0, 11)] [[(1, 4), (0, 8), (0, 13)], [(0, 2), (1, 2), (0, 7)]]
    (by decide) (by decide) (by decide)

/-- Evaluation of the ballot encoder: each one-hot entry is encrypted with
its own randomness. -/
theorem encrypt_ballot_eval (e : Encryption) (ids : List Int) (ch : Int)
    (rs : List Int) (hN2 : e.n * e.n ≠ 0) (hn : 0 ≤ e.n) :
    _encrypt_ballot e ids ch rs = .ok ((ids.zip rs).map fun xr =>
      encVal e.g e.n (if xr.1 = ch then 1 else 0) xr.2) := by
  unfold _encrypt_ballot
  apply mapM_eval
  intro xr _
  have hcast : (if xr.1 = ch then (1 : Int) else 0) =
      ((if xr.1 = ch then 1 else 0 : Nat) : Int) := by
    by_cases h : xr.1 = ch <;> simp [h]
  rw [hcast, rawEncrypt_natCast_eval e _ _ hN2 hn]
  rfl

/-- A `Forall₂` of successful computations pins the output list down. -/
theorem forall₂_ok_eq {α β : Type} {f : α → Except PyErr β} {g : α → β}
    {l : List α} {out : List β} (h : List.Forall₂ (fun a b => f a = .ok b) l out)
    (hg : ∀ a ∈ l, f a = .ok (g a)) : out = l.map g := by
  induction h with
  | nil => rfl
  | @cons a b l' out' hab hrest ih =>
    have h2 := hg a (by simp)
    rw [h2] at hab
    cases hab
    rw [List.map_cons]
    exact congrArg _ (ih (fun a' ha' => hg a' (by simp [ha'])))

/-- Sum of a one-hot indicator column is the number of matching choices. -/
theorem sum_map_ite_countP (a : Int) :
    ∀ (l : List (Int × List Int)),
      (l.map fun v => if a = v.1 then (1 : Nat) else 0).sum =
        l.countP fun v => decide (a = v.1)
  | [] => rfl
  | v :: l => by
    have ih := sum_map_ite_countP a l
    simp only [List.map_cons, List.sum_cons, List.countP_cons, ih]
    by_cases h : a = v.1 <;> simp [h, Nat.add_comm]

/-- C2: for every election whose stored ballots are the one-hot vectors the
ballot encoder `Vote._encrypt_ballot` produces (a `1` at the chosen
candidate's position, `0` elsewhere, each entry freshly encrypted with
randomness coprime to the modulus), with fewer ballots than the plaintext
modulus, `end_election` closes the election and the persisted
`decrypted_total` holds, at every candidate position, exactly the number of
ballots that chose that candidate. -/
theorem end_election_decrypted_counts {p q : Nat} (hp : p.Prime) (hq : q.Prime)
    (hpq : p ≠ q) (hco : Nat.Coprime ((p - 1) * (q - 1)) (p * q))
    (ids : List Int) (v0 : Int × List Int) (vrest : List (Int × List Int))
    (hlen : ∀ v ∈ v0 :: vrest, v.2.length = ids.length)
    (hcop : ∀ v ∈ v0 :: vrest, ∀ r ∈ v.2, Int.gcd r (p * q : Int) = 1)
    (hk : (v0 :: vrest).length < p * q)
    (ballots : List (List Int))
    (hballots : List.Forall₂ (fun v bs =>
      _encrypt_ballot ⟨1 + (p * q : Int), (p * q : Int), none⟩ ids v.1 v.2 = .ok bs)
      (v0 :: vrest) ballots) :
    (end_election (honestElection (1 + (p * q : Int)) (p * q : Int)
        (((p - 1) * (q - 1) : Nat) : Int) ballots)).2 = .ended ∧
    (end_election (honestElection (1 + (p * q : Int)) (p * q : Int)
        (((p - 1) * (q - 1) : Nat) : Int) ballots)).1.decrypted_total =
      some (J.jlist (List.ofFn fun j : Fin ids.length =>
        J.jint (((v0 :: vrest).countP fun v => decide (ids.get j = v.1) : Nat) : Int))) := by
  set n : Int := (p * q : Int) with hn
  set g : Int := 1 + n with hgdef
  set phiI : Int := (((p - 1) * (q - 1) : Nat) : Int) with hphiI
  have h4 : 4 ≤ p * q := le_trans (by norm_num) (Nat.mul_le_mul hp.two_le hq.two_le)
  have hn1 : 1 < n := by rw [hn]; exact_mod_cast Nat.lt_of_lt_of_le (by norm_num) h4
  have hn0 : n ≠ 0 := by omega
  have hN2 : n * n ≠ 0 := mul_ne_zero hn0 hn0
  have hphi2 : 2 ≤ (p - 1) * (q - 1) := phiN_two_le hp hq hpq
  have hphi1 : 1 < phiI := by
    rw [hphiI]
    exact_mod_cast Nat.lt_of_lt_of_le (by norm_num) hphi2
  have hphi0 : 0 ≤ phiI := by omega
  have hncast : n = ((p * q : Nat) : Int) := by rw [hn]; push_cast; ring
  have hgphi : Int.gcd phiI n = 1 := by
    rw [hphiI, hncast, Int.gcd_natCast_natCast]
    exact hco
  have hnphi : Int.gcd n phiI = 1 := by
    rw [hphiI, hncast, Int.gcd_natCast_natCast]
    exact hco.symm
  have hg : Int.gcd g (n * n) = 1 := by rw [hgdef]; exact gcd_one_add_sq n
  have hton : n.toNat = p * q := by rw [hncast]; exact_mod_cast Int.toNat_natCast (p * q)
  -- identify the stored ballots with the one-hot pair matrices
  have hballs : ballots = (v0 :: vrest).map fun v =>
      ((ids.zip v.2).map fun xr => ((if xr.1 = v.1 then 1 else 0 : Nat), xr.2)).map
        fun mr => encVal g n mr.1 mr.2 := by
    have h1 := @forall₂_ok_eq _ _ _ (fun v => (ids.zip v.2).map fun xr =>
      encVal g n (if xr.1 = v.1 then 1 else 0) xr.2) _ _ hballots ?_
    · rw [h1]
      apply List.map_congr_left
      intro v _
      rw [List.map_map]
      rfl
    · intro v _
      exact encrypt_ballot_eval ⟨g, n, none⟩ ids v.1 v.2 hN2 (show (0 : Int) ≤ n by omega)
  set pb : Int × List Int → List (Nat × Int) := fun v =>
    (ids.zip v.2).map fun xr => ((if xr.1 = v.1 then 1 else 0 : Nat), xr.2) with hpb
  have hpblen : ∀ v ∈ v0 :: vrest, (pb v).length = ids.length := by
    intro v hv
    rw [hpb]
    simp [List.length_zip, hlen v hv]
  rw [hballs, List.map_cons]
  set b0 : List (Nat × Int) := pb v0 with hb0
  set brest : List (List (Nat × Int)) := vrest.map pb with hbrest
  have hlenb : ∀ b ∈ brest, b.length = b0.length := by
    intro b hb
    rw [hbrest] at hb
    obtain ⟨v, hv, rfl⟩ := List.mem_map.mp hb
    rw [hpblen v (by simp [hv]), hb0, hpblen v0 (by simp)]
  set c0 : List Int := b0.map fun mr => encVal g n mr.1 mr.2 with hc0
  set crest : List (List Int) := brest.map fun b => b.map fun mr => encVal g n mr.1 mr.2
    with hcrest
  have hlenc : ∀ bs ∈ crest, bs.length = c0.length := by
    intro bs hbs
    rw [hcrest] at hbs
    obtain ⟨b, hb, rfl⟩ := List.mem_map.mp hbs
    simp [hc0, hlenb b hb]
  have hcrest' : brest.map (fun b => b.map fun mr => encVal g n mr.1 mr.2) = crest := rfl
  have hmapeq : (vrest.map fun v => (pb v).map fun mr => encVal g n mr.1 mr.2) = crest := by
    rw [hcrest, hbrest, List.map_map]
    rfl
  rw [hmapeq]
  have hbody := endElectionBody_honest g n phiI c0 crest hn1 hphi0 hgphi hnphi hphi1 hg
    hlenc
  have hend : end_election (honestElection g n phiI (c0 :: crest)) =
      ({ honestElection g n phiI (c0 :: crest) with
          encrypted_positive_total := some (J.jlist ((tallyE n c0 crest).map
            fun c => Ciphertext.to_json ⟨c, none⟩)),
          decrypted_total := some (J.jlist ((tallyE n c0 crest).map
            fun c => J.jint (decVal n phiI c))),
          encrypted_negative_total := some (J.jlist ((tallyE n c0 crest).map
            fun c => Ciphertext.to_json ⟨negE g n phiI c, some 1⟩)),
          encrypted_zero_sum := some (J.jlist ((tallyE n c0 crest).map
            fun c => Ciphertext.to_json ⟨zsE g n phiI c, none⟩)),
          zero_randomness := some (J.jlist ((tallyE n c0 crest).map
            fun c => J.jint (zrE g n phiI c))),
          active := false }, .ended) := by
    unfold end_election
    rw [hbody]
    rfl
  rw [hend]
  refine ⟨rfl, ?_⟩
  show some (J.jlist ((tallyE n c0 crest).map fun c => J.jint (decVal n phiI c))) = _
  have hElen : (tallyE n c0 crest).length = ids.length := by
    rw [tallyE_length n crest c0 hlenc, hc0, List.length_map, hb0]
    exact hpblen v0 (by simp)
  congr 1
  congr 1
  apply List.ext_getElem
  · simp [hElen]
  · intro j hj1 hj2
    have hjids : j < ids.length := by simpa using hj2
    have hjb0 : j < b0.length := by rw [hb0, hpblen v0 (by simp)]; exact hjids
    have hjE : j < (tallyE n c0 crest).length := by rw [hElen]; exact hjids
    rw [List.getElem_map, List.getElem_ofFn, List.get_eq_getElem]
    -- the column decomposition at index j
    have hdecomp := tallyE_entry_decomp g n b0 brest hlenb j hjb0
    rw [← hc0, ← hcrest] at hdecomp
    -- the column values are the one-hot indicators
    have hcol1 : ((b0 :: brest).map fun b => (b.getD j (0, 1)).1) =
        (v0 :: vrest).map fun v => if ids[j] = v.1 then (1 : Nat) else 0 := by
      rw [hb0, hbrest, ← List.map_cons pb v0 vrest, List.map_map]
      apply List.map_congr_left
      intro v hv
      show ((pb v).getD j (0, 1)).1 = _
      have hjv : j < (pb v).length := by rw [hpblen v hv]; exact hjids
      rw [List.getD_eq_getElem _ _ hjv]
      simp only [hpb, List.getElem_map, List.getElem_zip]
    have hsumj : ((b0 :: brest).map fun b => (b.getD j (0, 1)).1).sum =
        (v0 :: vrest).countP fun v => decide (ids[j] = v.1) := by
      rw [hcol1, sum_map_ite_countP]
    have hsumlt : ((b0 :: brest).map fun b => (b.getD j (0, 1)).1).sum < p * q := by
      rw [hsumj]
      exact lt_of_le_of_lt (List.countP_le_length _) hk
    have hRcop : Int.gcd (((b0 :: brest).map fun b => (b.getD j (0, 1)).2).prod) n = 1 := by
      apply gcd_list_prod_one
      intro r hr
      obtain ⟨b, hb, rfl⟩ := List.mem_map.mp hr
      have hbform : ∃ v ∈ v0 :: vrest, b = pb v := by
        rcases List.mem_cons.mp hb with rfl | hb'
        · exact ⟨v0, by simp, hb0⟩
        · rw [hbrest] at hb'
          obtain ⟨v, hv, rfl⟩ := List.mem_map.mp hb'
          exact ⟨v, by simp [hv], rfl⟩
      obtain ⟨v, hv, rfl⟩ := hbform
      have hjv : j < (pb v).length := by rw [hpblen v hv]; exact hjids
      rw [List.getD_eq_getElem _ _ hjv]
      simp only [hpb, List.getElem_map, List.getElem_zip]
      exact hcop v hv _ (List.getElem_mem _)
    rw [hton, hgdef, hn] at hdecomp
    have hmatch := honest_column_match hp hq hpq hco _ _ _ hdecomp
      (by rw [← hn]; exact hRcop) hsumlt
    have hdec := hmatch.1
    rw [← hn, ← hphiI] at hdec
    have hval : decVal n phiI ((tallyE n c0 crest).getD j 0) =
        (((v0 :: vrest).countP fun v => decide (ids[j] = v.1) : Nat) : Int) := by
      rw [hdec, hsumj]
    rw [List.getD_eq_getElem _ _ hjE] at hval
    exact congrArg J.jint hval

/-- Witness for C2: candidates `[101, 102, 103]` (A, B, C) and ballots
`[A, A, B]` under the key `n = 15`, `g = 16`, `phi = 8`; the persisted
`decrypted_total` is exactly `[2, 1, 0]`. -/
theorem end_election_decrypted_counts_witness :
    (end_election (honestElection (1 + ((3 : Nat) * (5 : Nat) : Int))
        ((3 : Nat) * (5 : Nat) : Int) ((((3 : Nat) - 1) * ((5 : Nat) - 1) : Nat) : Int)
        ([(([(101 : Int), 102, 103].zip [2, 7, 11]).map fun xr =>
            encVal (1 + ((3 : Nat) * (5 : Nat) : Int)) ((3 : Nat) * (5 : Nat) : Int)
              (if xr.1 = (101 : Int) then 1 else 0) xr.2),
          (([(101 : Int), 102, 103].zip [4, 8, 13]).map fun xr =>
            encVal (1 + ((3 : Nat) * (5 : Nat) : Int)) ((3 : Nat) * (5 : Nat) : Int)
              (if xr.1 = (101 : Int) then 1 else 0) xr.2),
          (([(101 : Int), 102, 103].zip [2, 2, 7]).map fun xr =>
            encVal (1 + ((3 : Nat) * (5 : Nat) : Int)) ((3 : Nat) * (5 : Nat) : Int)
              (if xr.1 = (102 : Int) then 1 else 0) xr.2)]))).2 = .ended ∧
      (end_election (honestElection (1 + ((3 : Nat) * (5 : Nat) : Int))
        ((3 : Nat) * (5 : Nat) : Int) ((((3 : Nat) - 1) * ((5 : Nat) - 1) : Nat) : Int)
        ([(([(101 : Int), 102, 103].zip [2, 7, 11]).map fun xr =>
            encVal (1 + ((3 : Nat) * (5 : Nat) : Int)) ((3 : Nat) * (5 : Nat) : Int)
              (if xr.1 = (101 : Int) then 1 else 0) xr.2),
          (([(101 : Int), 102, 103].zip [4, 8, 13]).map fun xr =>
            encVal (1 + ((3 : Nat) * (5 : Nat) : Int)) ((3 : Nat) * (5 : Nat) : Int)
              (if xr.1 = (101 : Int) then 1 else 0) xr.2),
          (([(101 : Int), 102, 103].zip [2, 2, 7]).map fun xr =>
            encVal (1 + ((3 : Nat) * (5 : Nat) : Int)) ((3 : Nat) * (5 : Nat) : Int)
              (if xr.1 = (102 : Int) then 1 else 0) xr.2)]))).1.decrypted_total =
      some (J.jlist (List.ofFn fun j : Fin ([(101 : Int), 102, 103] : List Int).length =>
        J.jint ((([((101 : Int), ([2, 7, 11] : List Int)), (101, [4, 8, 13]),
          (102, [2, 2, 7])].countP fun v =>
            decide (([(101 : Int), 102, 103] : List Int).get j = v.1) : Nat) : Int)))) ∧
    (end_election (honestElection (1 + ((3 : Nat) * (5 : Nat) : Int))
        ((3 : Nat) * (5 : Nat) : Int) ((((3 : Nat) - 1) * ((5 : Nat) - 1) : Nat) : Int)
        ([(([(101 : Int), 102, 103].zip [2, 7, 11]).map fun xr =>
            encVal (1 + ((3 : Nat) * (5 : Nat) : Int)) ((3 : Nat) * (5 : Nat) : Int)
              (if xr.1 = (101 : Int) then 1 else 0) xr.2),
          (([(101 : Int), 102, 103].zip [4, 8, 13]).map fun xr =>
            encVal (1 + ((3 : Nat) * (5 : Nat) : Int)) ((3 : Nat) * (5 : Nat) : Int)
              (if xr.1 = (101 : Int) then 1 else 0) xr.2),
          (([(101 : Int), 102, 103].zip [2, 2, 7]).map fun xr =>
            encVal (1 + ((3 : Nat) * (5 : Nat) : Int)) ((3 : Nat) * (5 : Nat) : Int)
              (if xr.1 = (102 : Int) then 1 else 0) xr.2)]))).1.decrypted_total =
      some (J.jlist [J.jint 2, J.jint 1, J.jint 0]) :=
  by
  have h := @end_election_decrypted_counts 3 5 (by norm_num) (by norm_num) (by norm_num) (by decide)
    [(101 : Int), 102, 103] ((101 : Int), ([2, 7, 11] : List Int))
    [(101, [4, 8, 13]), (102, [2, 2, 7])] (by decide) (by decide) (by decide)
    ([(([(101 : Int), 102, 103].zip [2, 7, 11]).map fun xr =>
        encVal (1 + ((3 : Nat) * (5 : Nat) : Int)) ((3 : Nat) * (5 : Nat) : Int)
          (if xr.1 = (101 : Int) then 1 else 0) xr.2),
      (([(101 : Int), 102, 103].zip [4, 8, 13]).map fun xr =>
        encVal (1 + ((3 : Nat) * (5 : Nat) : Int)) ((3 : Nat) * (5 : Nat) : Int)
          (if xr.1 = (101 : Int) then 1 else 0) xr.2),
      (([(101 : Int), 102, 103].zip [2, 2, 7]).map fun xr =>
        encVal (1 + ((3 : Nat) * (5 : Nat) : Int)) ((3 : Nat) * (5 : Nat) : Int)
          (if xr.1 = (102 : Int) then 1 else 0) xr.2)])
    (List.Forall₂.cons (by rfl) (List.Forall₂.cons (by rfl) (List.Forall₂.cons (by rfl)
      List.Forall₂.nil)))
  exact ⟨h.1, h.2, h.2.trans (by rfl)⟩

/-- Closed form of `add` when both input ciphertexts carry a randomness
value (the combined randomness is kept only when both are nonzero, and is
reduced modulo the ciphertext modulus `n²`). -/
theorem add_some_eval (e : Encryption) (c d : Ciphertext) (r1 r2 : Int)
    (hc : c.randomness = some r1) (hd : d.randomness = some r2)
    (hN2 : e.n * e.n ≠ 0) :
    e.add c d = .ok ⟨c.ciphertext * d.ciphertext % (e.n * e.n),
      if r1 ≠ 0 ∧ r2 ≠ 0 then some (r1 * r2 % (e.n * e.n)) else none⟩ := by
  unfold Encryption.add
  simp only [if_neg hN2, hc, hd]
  simp only [bind, Except.bind, pure, Except.pure]

/-- C3: additive homomorphism of `Encryption.add` under an honest Paillier
key pair `n = p·q`, `g = n + 1`, `phi = (p-1)(q-1)`: decrypting the
homomorphic sum of the encryptions of `a` and `b` (with randomness coprime
to `n`) yields `a + b` reduced modulo the plaintext space `n`. -/
theorem decrypt_add_encrypt_homomorphism {p q : Nat} (hp : p.Prime) (hq : q.Prime)
    (hpq : p ≠ q) (hco : Nat.Coprime ((p - 1) * (q - 1)) (p * q))
    (e : Encryption) (hg : e.g = 1 + (p * q : Int)) (hn : e.n = (p * q : Int))
    (hphi : e.phi = some (((p - 1) * (q - 1) : Nat) : Int))
    (a b : Nat) (r1 r2 : Int)
    (hr1 : Int.gcd r1 (p * q : Int) = 1) (hr2 : Int.gcd r2 (p * q : Int) = 1) :
    (do
      let c1 ← e.encrypt (a : Int) r1
      let c2 ← e.encrypt (b : Int) r2
      let s ← e.add c1 c2
      e.decrypt s) = .ok (((a : Int) + (b : Int)) % (p * q : Int)) := by
  have h4 : 4 ≤ p * q := le_trans (by norm_num) (Nat.mul_le_mul hp.two_le hq.two_le)
  have hn1 : (1 : Int) < e.n := by
    rw [hn]
    exact_mod_cast Nat.lt_of_lt_of_le (by norm_num) h4
  have hn0 : (0 : Int) ≤ e.n := by omega
  have hnne : e.n ≠ 0 := by omega
  have hN2 : e.n * e.n ≠ 0 := mul_ne_zero hnne hnne
  have hton : e.n.toNat = p * q := by
    rw [hn, show ((p : Int) * q) = ((p * q : Nat) : Int) from by push_cast; ring,
      Int.toNat_natCast]
  have hgphi : Int.gcd (((p - 1) * (q - 1) : Nat) : Int) e.n = 1 := by
    rw [hn, show ((p : Int) * q) = ((p * q : Nat) : Int) from by push_cast; ring,
      Int.gcd_natCast_natCast]
    exact hco
  have henc1 := encrypt_natCast_eval e a r1 hN2 hn0
  have henc2 := encrypt_natCast_eval e b r2 hN2 hn0
  have hadd := add_some_eval e ⟨e.g ^ a * r1 ^ e.n.toNat % (e.n * e.n), some r1⟩
    ⟨e.g ^ b * r2 ^ e.n.toNat % (e.n * e.n), some r2⟩ r1 r2 rfl rfl hN2
  have hdec := decrypt_eval e _ hphi hnne (Int.natCast_nonneg _) hgphi
    ⟨(e.g ^ a * r1 ^ e.n.toNat % (e.n * e.n)) *
        (e.g ^ b * r2 ^ e.n.toNat % (e.n * e.n)) % (e.n * e.n),
      if r1 ≠ 0 ∧ r2 ≠ 0 then some (r1 * r2 % (e.n * e.n)) else none⟩
  simp only [bind, Except.bind, henc1, henc2, hadd, hdec]
  rw [hg, hton, hn]
  have hc : ((1 + (p * q : Int)) ^ a * r1 ^ (p * q) % ((p * q : Int) * (p * q : Int))) *
        ((1 + (p * q : Int)) ^ b * r2 ^ (p * q) % ((p * q : Int) * (p * q : Int))) %
        ((p * q : Int) * (p * q : Int)) ≡
      (1 + (p * q : Int)) ^ (a + b) * (r1 * r2) ^ (p * q)
        [ZMOD (p * q : Int) * (p * q : Int)] := by
    calc ((1 + (p * q : Int)) ^ a * r1 ^ (p * q) % ((p * q : Int) * (p * q : Int))) *
          ((1 + (p * q : Int)) ^ b * r2 ^ (p * q) % ((p * q : Int) * (p * q : Int))) %
          ((p * q : Int) * (p * q : Int)) ≡
        ((1 + (p * q : Int)) ^ a * r1 ^ (p * q)) *
          ((1 + (p * q : Int)) ^ b * r2 ^ (p * q))
          [ZMOD (p * q : Int) * (p * q : Int)] :=
        (Int.mod_modEq _ _).trans ((Int.mod_modEq _ _).mul (Int.mod_modEq _ _))
      _ = (1 + (p * q : Int)) ^ (a + b) * (r1 * r2) ^ (p * q) := by
        rw [pow_add, mul_pow]; ring
  have hR : Int.gcd (r1 * r2) (p * q : Int) = 1 :=
    Int.isCoprime_iff_gcd_eq_one.mp
      ((Int.isCoprime_iff_gcd_eq_one.mpr hr1).mul_left
        (Int.isCoprime_iff_gcd_eq_one.mpr hr2))
  have hfin := decVal_honest hp hq hpq hco _ (r1 * r2) (a + b) hc hR
  rw [hfin, Nat.cast_add]

/-- Witness for C3: under the key `n = 15`, `g = 16`, `phi = 8` the
homomorphic sum of encryptions of `4` and `9` decrypts to `13 = (4 + 9) % 15`. -/
theorem decrypt_add_encrypt_homomorphism_witness :
    (do
      let c1 ← Encryption.encrypt ⟨16, 15, some 8⟩ ((4 : Nat) : Int) 2
      let c2 ← Encryption.encrypt ⟨16, 15, some 8⟩ ((9 : Nat) : Int) 7
      let s ← Encryption.add ⟨16, 15, some 8⟩ c1 c2
      Encryption.decrypt ⟨16, 15, some 8⟩ s) =
      .ok ((((4 : Nat) : Int) + ((9 : Nat) : Int)) % ((3 : Nat) * (5 : Nat) : Int)) :=
  @decrypt_add_encrypt_homomorphism 3 5 (by norm_num) (by norm_num) (by norm_num)
    (by decide) ⟨16, 15, some 8⟩ (by decide) (by decide) (by decide) 4 9 2 7
    (by decide) (by decide)

/-- C4: round trip under an honest Paillier key pair `n = p·q`, `g = n + 1`,
`phi = (p-1)(q-1)`: for every plaintext `m` in the plaintext space
(`m < n`) and every randomness `r` coprime to `n`, decryption inverts
encryption exactly. -/
theorem decrypt_encrypt_roundtrip {p q : Nat} (hp : p.Prime) (hq : q.Prime)
    (hpq : p ≠ q) (hco : Nat.Coprime ((p - 1) * (q - 1)) (p * q))
    (e : Encryption) (hg : e.g = 1 + (p * q : Int)) (hn : e.n = (p * q : Int))
    (hphi : e.phi = some (((p - 1) * (q - 1) : Nat) : Int))
    (m : Nat) (hm : m < p * q) (r : Int) (hr : Int.gcd r (p * q : Int) = 1) :
    (e.encrypt (m : Int) r).bind e.decrypt = .ok (m : Int) := by
  have h4 : 4 ≤ p * q := le_trans (by norm_num) (Nat.mul_le_mul hp.two_le hq.two_le)
  have hn1 : (1 : Int) < e.n := by
    rw [hn]
    exact_mod_cast Nat.lt_of_lt_of_le (by norm_num) h4
  have hn0 : (0 : Int) ≤ e.n := by omega
  have hnne : e.n ≠ 0 := by omega
  have hN2 : e.n * e.n ≠ 0 := mul_ne_zero hnne hnne
  have hton : e.n.toNat = p * q := by
    rw [hn, show ((p : Int) * q) = ((p * q : Nat) : Int) from by push_cast; ring,
      Int.toNat_natCast]
  have hgphi : Int.gcd (((p - 1) * (q - 1) : Nat) : Int) e.n = 1 := by
    rw [hn, show ((p : Int) * q) = ((p * q : Nat) : Int) from by push_cast; ring,
      Int.gcd_natCast_natCast]
    exact hco
  have henc := encrypt_natCast_eval e m r hN2 hn0
  have hdec := decrypt_eval e _ hphi hnne (Int.natCast_nonneg _) hgphi
    ⟨e.g ^ m * r ^ e.n.toNat % (e.n * e.n), some r⟩
  simp only [henc, Except.bind, hdec]
  rw [hg, hton, hn]
  have hc : (1 + (p * q : Int)) ^ m * r ^ (p * q) % ((p * q : Int) * (p * q : Int)) ≡
      (1 + (p * q : Int)) ^ m * r ^ (p * q)
        [ZMOD (p * q : Int) * (p * q : Int)] := Int.mod_modEq _ _
  have hfin := decVal_honest hp hq hpq hco _ r m hc hr
  rw [hfin, Int.emod_eq_of_lt (Int.natCast_nonneg _) (by exact_mod_cast hm)]

/-- Witness for C4: under the key `n = 15`, `g = 16`, `phi = 8` the
plaintext `11` encrypted with randomness `7` decrypts back to `11`. -/
theorem decrypt_encrypt_roundtrip_witness :
    (Encryption.encrypt ⟨16, 15, some 8⟩ ((11 : Nat) : Int) 7).bind
      (Encryption.decrypt ⟨16, 15, some 8⟩) = .ok ((11 : Nat) : Int) :=
  @decrypt_encrypt_roundtrip 3 5 (by norm_num) (by norm_num) (by norm_num)
    (by decide) ⟨16, 15, some 8⟩ (by decide) (by decide) (by decide) 11
    (by decide) 7 (by decide)

/-- C5 (amended): when both input ciphertexts carry a **nonzero** randomness
value, `Encryption.add` carries the product of the two randomness values
reduced modulo the **ciphertext** modulus `n²` (not the plaintext modulus
`n`); a zero randomness on either side fails Python's truthiness check and
the result carries no randomness at all. -/
theorem add_randomness_product (e : Encryption) (ct1 ct2 : Ciphertext)
    (r1 r2 : Int) (h1 : ct1.randomness = some r1) (h2 : ct2.randomness = some r2)
    (hN2 : e.n * e.n ≠ 0) :
    e.add ct1 ct2 = .ok ⟨ct1.ciphertext * ct2.ciphertext % e.ciphertext_modulo,
      if r1 ≠ 0 ∧ r2 ≠ 0 then some (r1 * r2 % e.ciphertext_modulo) else none⟩ :=
  add_some_eval e ct1 ct2 r1 r2 h1 h2 hN2

/-- Witness for C5: under `n = 15` (so `n² = 225`), adding two ciphertexts
with randomness `7` and `22` yields randomness `7·22 % 225 = 154`, and a
zero randomness is dropped. -/
theorem add_randomness_product_witness :
    Encryption.add ⟨16, 15, none⟩ ⟨2, some 7⟩ ⟨3, some 22⟩ =
      .ok ⟨2 * 3 % Encryption.ciphertext_modulo ⟨16, 15, none⟩,
        if (7 : Int) ≠ 0 ∧ (22 : Int) ≠ 0
          then some (7 * 22 % Encryption.ciphertext_modulo ⟨16, 15, none⟩)
          else none⟩ :=
  add_randomness_product ⟨16, 15, none⟩ ⟨2, some 7⟩ ⟨3, some 22⟩ 7 22 rfl rfl
    (by decide)

/-- Counterexample to C5 as stated: under `n = 15`, the randomness carried by
`add` on inputs with randomness `7` and `22` is `154 = 7·22 mod n²`, not
`7·22 mod n = 4` (the plaintext modulus of the claim); moreover an input
randomness of `0` is silently dropped instead of yielding `0 mod n`. -/
theorem add_randomness_plaintext_mod_counterexample :
    (Encryption.add ⟨16, 15, none⟩ ⟨2, some 7⟩ ⟨3, some 22⟩ =
      .ok ⟨6, some 154⟩) ∧
    (some (154 : Int) ≠ some (7 * 22 % Encryption.plaintext_modulo ⟨16, 15, none⟩)) ∧
    (Encryption.add ⟨16, 15, none⟩ ⟨2, some 0⟩ ⟨3, some 22⟩ = .ok ⟨6, none⟩) ∧
    (none ≠ some ((0 : Int) * 22 % Encryption.plaintext_modulo ⟨16, 15, none⟩)) :=
  ⟨rfl, by decide, rfl, by decide⟩

/-- `invMod` is the unique solution of `b · x ≡ 1` in `[0, m)`. -/
theorem invMod_eq_of {b m x : Int} (hm : 0 < m) (hg : Int.gcd b m = 1)
    (hx : 0 ≤ x) (hxm : x < m) (hbx : b * x % m = 1 % m) : invMod b m = x := by
  have h1 := invMod_mul_modEq hg
  have h2 : b * invMod b m ≡ b * x [ZMOD m] :=
    h1.trans (Int.ModEq.symm (hbx : Int.ModEq m (b * x) 1))
  have h3 := Int.ModEq.cancel_left_div_gcd hm h2
  rw [Int.gcd_comm m b, hg] at h3
  simp only [Nat.cast_one, Int.ediv_one] at h3
  have h4 : invMod b m % m = x % m := h3
  rw [Int.emod_eq_of_lt (invMod_nonneg hm) (invMod_lt hm),
    Int.emod_eq_of_lt hx hxm] at h4
  exact h4

/-- The verifier's zero-sum loop over serialized positive totals and an
independently recomputed negative-total list of the same length. -/
theorem verifyZipAdd_zip_eval (enc : Encryption) (hN2 : enc.n * enc.n ≠ 0)
    (h : Int → Int) :
    ∀ (xs ys : List Int), xs.length = ys.length →
      verifyZipAdd enc (xs.map fun c => Ciphertext.to_json ⟨c, none⟩)
          (ys.map fun d => (⟨h d, some 1⟩ : Ciphertext)) =
        .ok (List.zipWith (fun c d =>
          (⟨c * h d % (enc.n * enc.n), none⟩ : Ciphertext)) xs ys)
  | [], [], _ => rfl
  | [], y :: ys, hl => by simp at hl
  | x :: xs, [], hl => by simp at hl
  | x :: xs, y :: ys, hl => by
    have ih := verifyZipAdd_zip_eval enc hN2 h xs ys (by simpa using hl)
    simp only [List.map_cons, verifyZipAdd, from_json_to_json_none, bind, Except.bind]
    rw [add_none_eval enc _ _ rfl hN2]
    simp only [bind, Except.bind, ih, pure, Except.pure, List.zipWith_cons_cons]

/-- Evaluation of the verifier body when the stored `decrypted_total` is an
arbitrary list `D` of non-negative integers (not necessarily the honest
decryption), the other artifacts being the honest shapes: the verdict is
whatever the final comparison loop decides. -/
theorem verifyBody_decrypted_eval (e : ElectionRec) (g n phi : Int)
    (E D : List Int) (b : Bool)
    (hpk : e.public_key = some (J.jobj [("g", J.jint g), ("n", J.jint n)]))
    (hdt : e.decrypted_total = some (J.jlist (D.map J.jint)))
    (hept : e.encrypted_positive_total =
      some (J.jlist (E.map fun c => Ciphertext.to_json ⟨c, none⟩)))
    (hzr : e.zero_randomness = some (J.jlist (E.map fun c => J.jint (zrE g n phi c))))
    (hn : 1 < n) (hg : Int.gcd g (n * n) = 1) (hD : ∀ d ∈ D, 0 ≤ d)
    (hlen : E.length = D.length)
    (hcmp : compareLoop
      (List.zipWith (fun c d =>
        (⟨c * (invMod g (n * n) ^ d.toNat % (n * n)) % (n * n), none⟩ : Ciphertext))
        E D)
      (E.map fun c =>
        (⟨zrE g n phi c ^ n.toNat % (n * n), some (zrE g n phi c)⟩ : Ciphertext)) =
      .ok b) :
    verifyBody e = .ok (some b) := by
  have hn0 : n ≠ 0 := by omega
  have hN2 : n * n ≠ 0 := mul_ne_zero hn0 hn0
  have hN2' : (⟨g, n, none⟩ : Encryption).n * (⟨g, n, none⟩ : Encryption).n ≠ 0 := hN2
  have hneg : List.mapM J.pyNeg (D.map J.jint) = .ok (D.map fun d => -d) :=
    mapM_map_eval (fun d _ => rfl)
  have henc : List.mapM (fun x => Encryption.encrypt ⟨g, n, none⟩ x 1)
      (D.map fun d => -d) =
      .ok (D.map fun d =>
        (⟨invMod g (n * n) ^ d.toNat % (n * n), some 1⟩ : Ciphertext)) := by
    apply mapM_map_eval
    intro d hd
    exact encrypt_neg_eval ⟨g, n, none⟩ d (hD d hd)
      (show (1 : Int) < n * n by nlinarith) hg (show (0 : Int) ≤ n by omega)
  have hvz := verifyZipAdd_zip_eval ⟨g, n, none⟩ hN2'
    (fun d => invMod g (n * n) ^ d.toNat % (n * n)) E D hlen
  have hrecalc : List.mapM (fun v => Encryption.encryptJ ⟨g, n, none⟩ 0 v)
      (E.map fun c => J.jint (zrE g n phi c)) =
      .ok (E.map fun c =>
        (⟨zrE g n phi c ^ n.toNat % (n * n), some (zrE g n phi c)⟩ : Ciphertext)) := by
    apply mapM_map_eval
    intro c _
    exact encryptJ_int_eval ⟨g, n, none⟩ (zrE g n phi c)
      (show (1 : Int) < n * n by nlinarith) (show (0 : Int) ≤ n by omega)
  unfold verifyBody
  simp only [hpk, hdt, hept, hzr, loadField, bind, Except.bind,
    show J.getStr (J.jobj [("g", J.jint g), ("n", J.jint n)]) "g" = .ok (J.jint g)
      from rfl,
    show J.getStr (J.jobj [("g", J.jint g), ("n", J.jint n)]) "n" = .ok (J.jint n)
      from rfl,
    show Encryption.mkPublic (J.jint g) (J.jint n) = .ok ⟨g, n, none⟩ from rfl,
    J.iter, rangeElems, hneg, henc, hvz, hrecalc, hcmp, pure, Except.pure]

/-- First stored ballot of the concrete tampering scenario: a vote for the
first of three candidates under the key `n = 15`, `g = 16`. -/
def tamperBallot0 : List Int :=
  [encVal 16 15 1 2, encVal 16 15 0 7, encVal 16 15 0 11]

/-- Remaining stored ballots of the concrete tampering scenario: a second
vote for the first candidate and one vote for the second, giving the honest
tally `[2, 1, 0]`. -/
def tamperBallotsRest : List (List Int) :=
  [[encVal 16 15 1 4, encVal 16 15 0 8, encVal 16 15 0 13],
   [encVal 16 15 0 2, encVal 16 15 1 2, encVal 16 15 0 7]]

/-- C6: the verifier's final loop reports `Verified` **only** when every
index matches by exact integer equality of ciphertext values, a single
mismatch yields `Failed`; and concretely, mutating the stored
`decrypted_total` of an honestly tallied `[2, 1, 0]` election to `[1, 1, 0]`
(leaving `encrypted_positive_total` and `zero_randomness` untouched) makes
`_verify_results` return `Failed` (`some false`). -/
theorem verifier_exact_match :
    (∀ zs rs : List Ciphertext, zs.length = rs.length →
      ((compareLoop zs rs = .ok true ↔
        ∀ (j : Nat) (hj : j < zs.length) (hj' : j < rs.length),
          (zs.get ⟨j, hj⟩).ciphertext = (rs.get ⟨j, hj'⟩).ciphertext) ∧
       (compareLoop zs rs ≠ .ok true → compareLoop zs rs = .ok false))) ∧
    _verify_results { (end_election (honestElection 16 15 8
        (tamperBallot0 :: tamperBallotsRest))).1 with
      decrypted_total := some (J.jlist [J.jint 1, J.jint 1, J.jint 0]) } =
      .ok (some false) := by
  constructor
  · intro zs
    induction zs with
    | nil =>
      intro rs h
      exact ⟨⟨fun _ j hj _ => absurd hj (Nat.not_lt_zero j), fun _ => rfl⟩,
        fun hne => absurd rfl hne⟩
    | cons z zs ih =>
      intro rs h
      cases rs with
      | nil => simp at h
      | cons r rs =>
        have hlen : zs.length = rs.length := by simpa using h
        have ihr := ih rs hlen
        by_cases hz : z.ciphertext = r.ciphertext
        · have hcl : compareLoop (z :: zs) (r :: rs) = compareLoop zs rs := by
            simp only [compareLoop, if_neg (not_not_intro hz)]
          refine ⟨?_, ?_⟩
          · rw [hcl]
            constructor
            · intro hok j hj hj'
              cases j with
              | zero => exact hz
              | succ k =>
                exact ihr.1.mp hok k (Nat.lt_of_succ_lt_succ hj)
                  (Nat.lt_of_succ_lt_succ hj')
            · intro hall
              exact ihr.1.mpr fun k hk hk' =>
                hall (k + 1) (Nat.succ_lt_succ hk) (Nat.succ_lt_succ hk')
          · rw [hcl]
            exact ihr.2
        · have hcl : compareLoop (z :: zs) (r :: rs) = .ok false := by
            simp only [compareLoop, if_pos hz]
          refine ⟨?_, fun _ => hcl⟩
          rw [hcl]
          constructor
          · intro habs
            exact absurd (Except.ok.inj habs) (by simp)
          · intro hall
            exact absurd (hall 0 (Nat.succ_pos _) (Nat.succ_pos _)) hz
  · have hbody := endElectionBody_honest 16 15 8 tamperBallot0 tamperBallotsRest
      (by norm_num) (by norm_num) (by decide) (by decide) (by norm_num) (by decide)
      (by decide)
    have hend : end_election (honestElection 16 15 8
        (tamperBallot0 :: tamperBallotsRest)) =
        ({ honestElection 16 15 8 (tamperBallot0 :: tamperBallotsRest) with
          encrypted_positive_total :=
            some (J.jlist ((tallyE 15 tamperBallot0 tamperBallotsRest).map
              fun c => Ciphertext.to_json ⟨c, none⟩)),
          decrypted_total :=
            some (J.jlist ((tallyE 15 tamperBallot0 tamperBallotsRest).map
              fun c => J.jint (decVal 15 8 c))),
          encrypted_negative_total :=
            some (J.jlist ((tallyE 15 tamperBallot0 tamperBallotsRest).map
              fun c => Ciphertext.to_json ⟨negE 16 15 8 c, some 1⟩)),
          encrypted_zero_sum :=
            some (J.jlist ((tallyE 15 tamperBallot0 tamperBallotsRest).map
              fun c => Ciphertext.to_json ⟨zsE 16 15 8 c, none⟩)),
          zero_randomness :=
            some (J.jlist ((tallyE 15 tamperBallot0 tamperBallotsRest).map
              fun c => J.jint (zrE 16 15 8 c))),
          active := false }, .ended) := by
      unfold end_election
      rw [if_neg (show ¬ (honestElection 16 15 8
        (tamperBallot0 :: tamperBallotsRest)).active = false from by decide), hbody]
    have hinv1 : invMod 16 225 = 211 :=
      invMod_eq_of (by norm_num) (by decide) (by norm_num) (by norm_num) (by decide)
    have hinv2 : invMod 8 15 = 2 :=
      invMod_eq_of (by norm_num) (by decide) (by norm_num) (by norm_num) (by decide)
    have hinv3 : invMod 15 8 = 7 :=
      invMod_eq_of (by norm_num) (by decide) (by norm_num) (by norm_num) (by decide)
    have hcmp : compareLoop
        (List.zipWith (fun c d =>
          (⟨c * (invMod 16 ((15 : Int) * 15) ^ d.toNat % ((15 : Int) * 15)) %
            ((15 : Int) * 15), none⟩ : Ciphertext))
          (tallyE 15 tamperBallot0 tamperBallotsRest) ([1, 1, 0] : List Int))
        ((tallyE 15 tamperBallot0 tamperBallotsRest).map fun c =>
          (⟨zrE 16 15 8 c ^ (15 : Int).toNat % ((15 : Int) * 15),
            some (zrE 16 15 8 c)⟩ : Ciphertext)) = .ok false := by
      simp only [zrE, zsE, negE, decVal,
        show ((15 : Int) * 15) = 225 from by norm_num, hinv1, hinv2, hinv3]
      rfl
    have hver := verifyBody_decrypted_eval
      { (end_election (honestElection 16 15 8
          (tamperBallot0 :: tamperBallotsRest))).1 with
        decrypted_total := some (J.jlist [J.jint 1, J.jint 1, J.jint 0]) }
      16 15 8 (tallyE 15 tamperBallot0 tamperBallotsRest) [1, 1, 0] false
      (by rw [hend]; rfl) (by rw [hend]; rfl) (by rw [hend]) (by rw [hend])
      (by norm_num) (by decide) (by decide) (by decide) hcmp
    unfold _verify_results
    rw [hver]

/-- C7: `end_election` on an active election with zero ballots reports the
no-votes condition and returns the persisted record completely unchanged: no
artifact field is written and the election stays open. -/
theorem end_election_no_votes (e : ElectionRec) (ha : e.active = true)
    (hv : e.votes = []) : end_election e = (e, .noVotes) := by
  unfold end_election endElectionBody
  rw [ha, hv]
  rfl

/-- Witness for C7: a concrete active election with no stored ballots. -/
theorem end_election_no_votes_witness :
    end_election ⟨some (J.jint 1), none, none, none, none, none, none, true, []⟩ =
      (⟨some (J.jint 1), none, none, none, none, none, none, true, []⟩, .noVotes) :=
  end_election_no_votes _ rfl rfl

/-- C8: whenever the tally body of `end_election` raises any exception, the
whole close operation aborts with the persisted election state untouched:
the returned record is exactly the input record (so none of the five
artifact fields is saved and `active` is unchanged). -/
theorem end_election_error_aborts (e : ElectionRec) (err : PyErr)
    (h : (end_election e).2 = .errorAborted err) : (end_election e).1 = e := by
  unfold end_election at h ⊢
  by_cases ha : e.active = false
  · rw [if_pos ha]
  · rw [if_neg ha] at h ⊢
    cases hb : endElectionBody e with
    | ok v =>
      cases v with
      | none => rfl
      | some u => simp [hb] at h
    | error er => rfl

/-- Witness for C8: an active election with a stored ballot but an empty
(undecodable) public-key field: the tally raises `JSONDecodeError` and the
persisted record is returned unchanged. -/
theorem end_election_error_aborts_witness :
    (end_election ⟨none, none, none, none, none, none, none, true,
        [some (J.jlist [J.jint 3])]⟩).2 =
      .errorAborted .jsonDecodeError ∧
    (end_election ⟨none, none, none, none, none, none, none, true,
        [some (J.jlist [J.jint 3])]⟩).1 =
      ⟨none, none, none, none, none, none, none, true, [some (J.jlist [J.jint 3])]⟩ :=
  ⟨rfl, end_election_error_aborts _ .jsonDecodeError rfl⟩

/-- Error elimination through a monadic bind over `Except`. -/
theorem except_bind_error {α β : Type} {m : Except PyErr α} {f : α → Except PyErr β}
    {err : PyErr} (h : (m >>= f) = .error err) :
    m = .error err ∨ ∃ a, m = .ok a ∧ f a = .error err := by
  cases m with
  | error e =>
    left
    rw [show ((Except.error e : Except PyErr α) >>= f) =
      (Except.error e : Except PyErr β) from rfl] at h
    exact congrArg Except.error (Except.error.inj h)
  | ok a =>
    right
    refine ⟨a, rfl, ?_⟩
    rw [show ((Except.ok a : Except PyErr α) >>= f) = f a from rfl] at h
    exact h

/-- `json.loads` never raises `ZeroDivisionError`. -/
theorem loads_ne_zeroDiv {j : J} {err : PyErr} (h : J.loads j = .error err) :
    err ≠ .zeroDivisionError := by
  cases j
  case jstr s p =>
    cases p with
    | none => have := Except.error.inj h; subst this; decide
    | some v => simp [J.loads] at h
  all_goals (have hinj2 := Except.error.inj h; subst hinj2; decide)

/-- String subscripting never raises `ZeroDivisionError`. -/
theorem getStr_ne_zeroDiv {j : J} {k : String} {err : PyErr}
    (h : J.getStr j k = .error err) : err ≠ .zeroDivisionError := by
  cases j
  case jobj fs =>
    simp only [J.getStr] at h
    cases hl : fs.lookup k with
    | some v => rw [hl] at h; simp at h
    | none => rw [hl] at h; have := Except.error.inj h; subst this; decide
  all_goals (have hinj2 := Except.error.inj h; subst hinj2; decide)

/-- `int(v)` never raises `ZeroDivisionError`. -/
theorem toInt_ne_zeroDiv {j : J} {err : PyErr} (h : J.toInt j = .error err) :
    err ≠ .zeroDivisionError := by
  cases j
  case jint i => simp [J.toInt] at h
  case jbool b => simp [J.toInt] at h
  case jstr s p =>
    cases p with
    | none => have := Except.error.inj h; subst this; decide
    | some v =>
      cases v
      case jint i => simp [J.toInt] at h
      all_goals (have hinj2 := Except.error.inj h; subst hinj2; decide)
  all_goals (have hinj2 := Except.error.inj h; subst hinj2; decide)

/-- Unary minus never raises `ZeroDivisionError`. -/
theorem pyNeg_ne_zeroDiv {j : J} {err : PyErr} (h : J.pyNeg j = .error err) :
    err ≠ .zeroDivisionError := by
  cases j
  case jint i => simp [J.pyNeg] at h
  case jbool b => simp [J.pyNeg] at h
  all_goals (have hinj2 := Except.error.inj h; subst hinj2; decide)

/-- Integer coercion of an operand never raises `ZeroDivisionError`. -/
theorem asArith_ne_zeroDiv {j : J} {err : PyErr} (h : J.asArith j = .error err) :
    err ≠ .zeroDivisionError := by
  cases j
  case jint i => simp [J.asArith] at h
  case jbool b => simp [J.asArith] at h
  all_goals (have hinj2 := Except.error.inj h; subst hinj2; decide)

/-- Iteration never raises `ZeroDivisionError`. -/
theorem iter_ne_zeroDiv {j : J} {err : PyErr} (h : J.iter j = .error err) :
    err ≠ .zeroDivisionError := by
  cases j
  case jlist xs => simp [J.iter] at h
  case jstr s p => simp [J.iter] at h
  case jobj fs => simp [J.iter] at h
  all_goals (have hinj2 := Except.error.inj h; subst hinj2; decide)

/-- Reading a stored field never raises `ZeroDivisionError`. -/
theorem loadField_ne_zeroDiv {o : Option J} {err : PyErr}
    (h : loadField o = .error err) : err ≠ .zeroDivisionError := by
  cases o with
  | some v => simp [loadField] at h
  | none => have := Except.error.inj h; subst this; decide

/-- The index loop's element sequence never raises `ZeroDivisionError`. -/
theorem rangeElems_ne_zeroDiv {j : J} {err : PyErr}
    (h : rangeElems j = .error err) : err ≠ .zeroDivisionError := by
  cases j
  case jlist xs => simp [rangeElems] at h
  case jstr s p => simp [rangeElems] at h
  case jobj fs =>
    simp only [rangeElems] at h
    split at h
    · simp at h
    · have := Except.error.inj h; subst this; decide
  all_goals (have hinj2 := Except.error.inj h; subst hinj2; decide)

/-- Three-argument `pow` never raises `ZeroDivisionError`. -/
theorem pyPow_ne_zeroDiv {b e m : Int} {err : PyErr}
    (h : pyPow b e m = .error err) : err ≠ .zeroDivisionError := by
  unfold pyPow at h
  split at h
  · have := Except.error.inj h; subst this; decide
  · split at h
    · simp at h
    · split at h
      · simp at h
      · have := Except.error.inj h; subst this; decide

/-- `Encryption.encrypt` never raises `ZeroDivisionError`. -/
theorem encrypt_ne_zeroDiv {e : Encryption} {m r : Int} {err : PyErr}
    (h : e.encrypt m r = .error err) : err ≠ .zeroDivisionError := by
  unfold Encryption.encrypt Encryption.rawEncrypt at h
  rcases except_bind_error h with h1 | ⟨a, _, h⟩
  · rcases except_bind_error h1 with h2 | ⟨a2, _, h2⟩
    · exact pyPow_ne_zeroDiv h2
    · rcases except_bind_error h2 with h3 | ⟨a3, _, h3⟩
      · exact pyPow_ne_zeroDiv h3
      · simp [pure, Except.pure] at h3
  · simp [pure, Except.pure] at h

/-- The verifier's re-encryption of zero never raises `ZeroDivisionError`. -/
theorem encryptJ_ne_zeroDiv {e : Encryption} {m : Int} {rv : J} {err : PyErr}
    (h : e.encryptJ m rv = .error err) : err ≠ .zeroDivisionError := by
  unfold Encryption.encryptJ at h
  rcases except_bind_error h with h1 | ⟨a, _, h⟩
  · exact pyPow_ne_zeroDiv h1
  rcases except_bind_error h with h1 | ⟨r, _, h⟩
  · exact asArith_ne_zeroDiv h1
  rcases except_bind_error h with h1 | ⟨b2, _, h⟩
  · exact pyPow_ne_zeroDiv h1
  simp [pure, Except.pure] at h

/-- A key component rebuilt from parsed JSON never raises
`ZeroDivisionError`. -/
theorem keyComponent_ne_zeroDiv {j : J} {err : PyErr}
    (h : Encryption.keyComponent j = .error err) : err ≠ .zeroDivisionError := by
  cases j
  case jint i => simp [Encryption.keyComponent] at h
  case jstr s p =>
    cases p with
    | none => have := Except.error.inj h; subst this; decide
    | some v =>
      cases v
      case jint i => simp [Encryption.keyComponent] at h
      all_goals (have hinj2 := Except.error.inj h; subst hinj2; decide)
  all_goals (have hinj2 := Except.error.inj h; subst hinj2; decide)

/-- Building a public-key-only `Encryption` never raises
`ZeroDivisionError`. -/
theorem mkPublic_ne_zeroDiv {gv nv : J} {err : PyErr}
    (h : Encryption.mkPublic gv nv = .error err) : err ≠ .zeroDivisionError := by
  unfold Encryption.mkPublic at h
  rcases except_bind_error h with h1 | ⟨g, _, h⟩
  · exact keyComponent_ne_zeroDiv h1
  rcases except_bind_error h with h1 | ⟨n, _, h⟩
  · exact keyComponent_ne_zeroDiv h1
  simp [pure, Except.pure] at h

/-- `Ciphertext.from_json` never raises `ZeroDivisionError`. -/
theorem from_json_ne_zeroDiv {j : J} {err : PyErr}
    (h : Ciphertext.from_json j = .error err) : err ≠ .zeroDivisionError := by
  unfold Ciphertext.from_json at h
  rcases except_bind_error h with h1 | ⟨data, _, h⟩
  · exact loads_ne_zeroDiv h1
  rcases except_bind_error h with h1 | ⟨ctV, _, h⟩
  · exact getStr_ne_zeroDiv h1
  rcases except_bind_error h with h1 | ⟨ct, _, h⟩
  · exact toInt_ne_zeroDiv h1
  rcases except_bind_error h with h1 | ⟨rV, _, h⟩
  · exact getStr_ne_zeroDiv h1
  split at h
  · rcases except_bind_error h with h1 | ⟨r, _, h⟩
    · exact toInt_ne_zeroDiv h1
    · simp [pure, Except.pure] at h
  · simp [pure, Except.pure] at h

/-- The final comparison loop never raises `ZeroDivisionError`. -/
theorem compareLoop_ne_zeroDiv :
    ∀ (zs rs : List Ciphertext) {err : PyErr}, compareLoop zs rs = .error err →
      err ≠ .zeroDivisionError
  | [], rs, err, h => by simp [compareLoop] at h
  | z :: zs, [], err, h => by
    have := Except.error.inj h; subst this; decide
  | z :: zs, r :: rs, err, h => by
    simp only [compareLoop] at h
    split at h
    · simp at h
    · exact compareLoop_ne_zeroDiv zs rs h

/-- `Encryption.add` succeeds whenever the ciphertext modulus is nonzero. -/
theorem add_isOk (e : Encryption) (hN2 : e.n * e.n ≠ 0) (c d : Ciphertext) :
    e.add c d = .ok ⟨c.ciphertext * d.ciphertext % (e.n * e.n),
      match c.randomness, d.randomness with
      | some r1, some r2 =>
        if r1 ≠ 0 ∧ r2 ≠ 0 then some (r1 * r2 % (e.n * e.n)) else none
      | _, _ => none⟩ := by
  unfold Encryption.add
  simp only [if_neg hN2, bind, Except.bind, pure, Except.pure]

/-- `encrypt` under a zero ciphertext modulus raises `ValueError` (Python's
`pow` rejects a zero modulus). -/
theorem encrypt_modzero (e : Encryption) (m r : Int) (h0 : e.n * e.n = 0) :
    e.encrypt m r = .error .valueError := by
  unfold Encryption.encrypt Encryption.rawEncrypt pyPow
  rw [if_pos h0]
  rfl

/-- The verifier's zero-sum loop with an empty recomputed negative-total
list never raises `ZeroDivisionError` (the homomorphic add is unreachable). -/
theorem verifyZipAdd_nil_ne_zeroDiv (enc : Encryption) :
    ∀ (vs : List J) {err : PyErr}, verifyZipAdd enc vs [] = .error err →
      err ≠ .zeroDivisionError
  | [], err, h => by simp [verifyZipAdd] at h
  | v :: vs, err, h => by
    simp only [verifyZipAdd] at h
    rcases except_bind_error h with h1 | ⟨temp, _, h2⟩
    · exact from_json_ne_zeroDiv h1
    · have := Except.error.inj h2; subst this; decide

/-- The verifier's zero-sum loop under a nonzero ciphertext modulus never
raises `ZeroDivisionError`. -/
theorem verifyZipAdd_ne_zeroDiv (enc : Encryption) (hN2 : enc.n * enc.n ≠ 0) :
    ∀ (vs : List J) (ents : List Ciphertext) {err : PyErr},
      verifyZipAdd enc vs ents = .error err → err ≠ .zeroDivisionError
  | [], ents, err, h => by simp [verifyZipAdd] at h
  | v :: vs, [], err, h => by
    simp only [verifyZipAdd] at h
    rcases except_bind_error h with h1 | ⟨temp, _, h2⟩
    · exact from_json_ne_zeroDiv h1
    · have := Except.error.inj h2; subst this; decide
  | v :: vs, c :: cs, err, h => by
    simp only [verifyZipAdd] at h
    rcases except_bind_error h with h1 | ⟨temp, _, h2⟩
    · exact from_json_ne_zeroDiv h1
    · rcases except_bind_error h2 with h3 | ⟨z, _, h4⟩
      · rw [add_isOk enc hN2 temp c] at h3
        simp at h3
      · rcases except_bind_error h4 with h5 | ⟨rest, _, h6⟩
        · exact verifyZipAdd_ne_zeroDiv enc hN2 vs cs h5
        · simp [pure, Except.pure] at h6

/-- No exception escaping the verifier body is a `ZeroDivisionError`: the
homomorphic add (the only raiser) runs only after at least one `encrypt`
succeeded, which forces a nonzero ciphertext modulus. -/
theorem verifyBody_error_not_zeroDiv (e : ElectionRec) (err : PyErr)
    (h : verifyBody e = .error err) : err ≠ .zeroDivisionError := by
  unfold verifyBody at h
  split at h
  · simp [pure, Except.pure] at h
  · rcases except_bind_error h with h1 | ⟨gv, _, h⟩
    · exact getStr_ne_zeroDiv h1
    rcases except_bind_error h with h1 | ⟨nv, _, h⟩
    · exact getStr_ne_zeroDiv h1
    rcases except_bind_error h with h1 | ⟨enc, _, h⟩
    · exact mkPublic_ne_zeroDiv h1
    rcases except_bind_error h with h1 | ⟨dt, _, h⟩
    · exact loadField_ne_zeroDiv h1
    rcases except_bind_error h with h1 | ⟨dtElems, _, h⟩
    · exact iter_ne_zeroDiv h1
    rcases except_bind_error h with h1 | ⟨negs, _, h⟩
    · obtain ⟨a, _, ha⟩ := mapM_error h1
      exact pyNeg_ne_zeroDiv ha
    rcases except_bind_error h with h1 | ⟨ent, hent, h⟩
    · obtain ⟨a, _, ha⟩ := mapM_error h1
      exact encrypt_ne_zeroDiv ha
    rcases except_bind_error h with h1 | ⟨ept, _, h⟩
    · exact loadField_ne_zeroDiv h1
    rcases except_bind_error h with h1 | ⟨eptElems, _, h⟩
    · exact rangeElems_ne_zeroDiv h1
    rcases except_bind_error h with h1 | ⟨zs, _, h⟩
    · by_cases hN2 : enc.n * enc.n = 0
      · have hent0 : ent = [] := by
          cases negs with
          | nil => exact (Except.ok.inj hent).symm
          | cons x xs =>
            rw [List.mapM_cons, encrypt_modzero enc x 1 hN2] at hent
            simp [bind, Except.bind] at hent
        rw [hent0] at h1
        exact verifyZipAdd_nil_ne_zeroDiv enc eptElems h1
      · exact verifyZipAdd_ne_zeroDiv enc hN2 eptElems ent h1
    rcases except_bind_error h with h1 | ⟨zr, _, h⟩
    · exact loadField_ne_zeroDiv h1
    rcases except_bind_error h with h1 | ⟨zrElems, _, h⟩
    · exact rangeElems_ne_zeroDiv h1
    rcases except_bind_error h with h1 | ⟨recalc, _, h⟩
    · obtain ⟨a, _, ha⟩ := mapM_error h1
      exact encryptJ_ne_zeroDiv ha
    rcases except_bind_error h with h1 | ⟨b, _, h⟩
    · exact compareLoop_ne_zeroDiv zs recalc h1
    simp [pure, Except.pure] at h

/-- C9 (amended): every exception of a class the verifier catches
(`JSONDecodeError`, `KeyError`, `IndexError`, `ValueError` — the
missing/malformed/un-parseable artifact cases) degrades to Indeterminate
(`None`); but an exception **can** escape `_verify_results` to the caller,
and every escaping exception is a `TypeError` (e.g. a stored
`decrypted_total` that parses to a non-iterable). -/
theorem verifier_malformed_degrades :
    (∀ (e : ElectionRec) (err : PyErr), verifyBody e = .error err →
      caughtByVerifier err = true → _verify_results e = .ok none) ∧
    (∀ (e : ElectionRec) (err : PyErr), _verify_results e = .error err →
      err = .typeError) := by
  constructor
  · intro e err h hc
    unfold _verify_results
    rw [h]
    simp [hc]
  · intro e err h
    unfold _verify_results at h
    split at h
    · simp at h
    · rename_i er heq
      split at h
      · simp at h
      · rename_i hc
        have hinj := Except.error.inj h
        subst hinj
        have hzd := verifyBody_error_not_zeroDiv e er heq
        cases er <;> simp_all [caughtByVerifier]

/-- Counterexample to C9 as stated: an election whose stored
`decrypted_total` parses to the integer `7` (malformed: not a list) makes
`_verify_results` raise `TypeError` to the caller instead of returning
Indeterminate. -/
theorem verifier_typeerror_propagates_counterexample :
    _verify_results ⟨some (J.jobj [("g", J.jint 16), ("n", J.jint 15)]), none, none,
        none, none, none, some (J.jint 7), true, []⟩ = .error .typeError ∧
    (Except.error PyErr.typeError : Except PyErr (Option Bool)) ≠ .ok none ∧
    (Except.error PyErr.typeError : Except PyErr (Option Bool)) ≠ .ok (some false) :=
  ⟨rfl, fun hc => Except.noConfusion hc, fun hc => Except.noConfusion hc⟩

/-- The digit accumulator of `Nat.toDigitsCore` never shrinks. -/
theorem nat_toDigitsCore_length_ge (b : Nat) :
    ∀ (f n : Nat) (l : List Char), l.length ≤ (Nat.toDigitsCore b f n l).length
  | 0, n, l => le_refl _
  | f + 1, n, l => by
    simp only [Nat.toDigitsCore]
    split
    · simp
    · exact le_trans (Nat.le_succ _)
        (nat_toDigitsCore_length_ge b f (n / b) (Nat.digitChar (n % b) :: l))

/-- A number always renders to at least one digit. -/
theorem nat_toDigits_ne_nil (b n : Nat) : Nat.toDigits b n ≠ [] := by
  unfold Nat.toDigits
  intro hc
  simp only [Nat.toDigitsCore] at hc
  split at hc
  · simp at hc
  · have hlen := nat_toDigitsCore_length_ge b n (n / b) [Nat.digitChar (n % b)]
    rw [hc] at hlen
    simp at hlen

/-- The decimal rendering of a natural number is never the empty string. -/
theorem nat_repr_ne_empty (n : Nat) : Nat.repr n ≠ "" := by
  intro hc
  exact nat_toDigits_ne_nil 10 n (congrArg String.data hc)

/-- The decimal rendering of an integer is never the empty string (so the
serialized randomness always passes Python's string truthiness check). -/
theorem int_toString_ne_empty (r : Int) : toString r ≠ "" := by
  cases r with
  | ofNat n => exact nat_repr_ne_empty n
  | negSucc n =>
    intro hc
    exact List.noConfusion (congrArg String.data hc)

/-- C10: the `Ciphertext` serialization round trip always reproduces the
ciphertext value exactly and reproduces the randomness exactly when it is
`None` or a nonzero integer, but a randomness of `0` fails the truthiness
check in `to_json` and comes back as `None`. -/
theorem from_json_to_json_roundtrip (c : Ciphertext) :
    Ciphertext.from_json (Ciphertext.to_json c) =
      .ok ⟨c.ciphertext, if c.randomness = some 0 then none else c.randomness⟩ := by
  obtain ⟨ct, r⟩ := c
  cases r with
  | none => exact from_json_to_json_none ct
  | some rv =>
    by_cases hr : rv = 0
    · subst hr
      rfl
    · have h1 : Ciphertext.to_json ⟨ct, some rv⟩ =
          J.jstr
            ("\x7b\"ciphertext\": \"" ++ toString ct ++ "\", \"randomness\": " ++
              ("\"" ++ toString rv ++ "\"") ++ "\x7d")
            (some (J.jobj
              [("ciphertext", J.jstr (toString ct) (some (J.jint ct))),
               ("randomness", J.jstr (toString rv) (some (J.jint rv)))])) := by
        simp only [Ciphertext.to_json, Ciphertext.randomnessJson, if_neg hr]
      rw [h1]
      have htr : (J.jstr (toString rv) (some (J.jint rv))).truthy = true := by
        simp only [J.truthy]
        exact bne_iff_ne.mpr (int_toString_ne_empty rv)
      unfold Ciphertext.from_json
      simp only [J.loads, bind, Except.bind,
        show ∀ v1 v2 : J, J.getStr (J.jobj [("ciphertext", v1), ("randomness", v2)])
          "ciphertext" = .ok v1 from fun v1 v2 => rfl,
        show ∀ v1 v2 : J, J.getStr (J.jobj [("ciphertext", v1), ("randomness", v2)])
          "randomness" = .ok v2 from fun v1 v2 => rfl,
        J.toInt, htr, if_pos, if_true, eq_self_iff_true, pure, Except.pure]
      rw [if_neg (fun hc => hr (Option.some.inj hc))]
